import Mathlib

/-!
Shallow embedding of the einsum ("Einstein summation") engine of
`src/casadi/core/runtime/shared.hpp`: the plan builder `einstein_process`
and the executor `einstein_eval`, together with the `Contraction` combine
operations.

Conventions of the embedding:
* C++ `int` is modelled as `Int` (the quantities reachable on valid inputs
  stay far from the 32-bit overflow boundary, and the claims under study are
  about the index algebra, not about wraparound).
* `std::vector<int>` is modelled as `List Int`; reading an element past the
  end of a vector is out of bounds (undefined behaviour) in the C++ source
  and is modelled here by the default value `0` (via `List.headI`/`List.getD`),
  and an out-of-range `std::vector` write is modelled by `List.set`'s no-op.
  Theorems that quantify over inputs carry the well-formedness hypotheses
  that exclude these out-of-bounds situations.
* `casadi_assert` aborts the call; a call is modelled as returning the
  by-reference output state together with `Option Int`: `some n_iter` on
  success, `none` when an assertion fired.  The output reference state that
  the caller observes after an assertion failure is the state at the throw
  point, which lets us reason about "no mutation before an error".
* data buffers are modelled as total functions `Int → α` (a pointer into an
  unbounded address space); the executor's writes are `Function.update`.
* C++ `/` and `%` on `int` truncate toward zero; every division/modulus the
  executor performs on a valid plan has non-negative operands, where `Int`'s
  `/` (`ediv`) and `%` (`emod`) coincide with the C++ result.
-/

namespace casadi

/-- The view of a matrix object (`MX`/`SX`/`DM`) that `einstein_process`
consumes: the three member functions it calls.  Only this metadata is read;
the numeric contents live in the separate data buffers fed to the
executor. -/
structure Tensor where
  is_vector : Bool
  is_dense : Bool
  numel : Int
deriving DecidableEq

/-- Modelled from the spec: `product` (from `std_vector_tools.hpp`, whose
definition is not part of the sources): the product of the entries of a
shape vector ("its product equals the number of elements in the associated
dense buffer"). -/
def product (l : List Int) : Int := l.prod

/-- The list `[0, 1, ..., n-1]` of `Int` loop counter values of a C++ loop
`for (int i = 0; i < n; ++i)`; empty when `n ≤ 0`. -/
def irange (n : Int) : List Int := (List.range n.toNat).map Int.ofNat

/-- `std::map<int,int>::find`, on the sorted association list that models
the `dim_map`. -/
def mapFind (k : Int) : List (Int × Int) → Option Int
  | [] => none
  | p :: ps => if p.1 = k then some p.2 else mapFind k ps

/-- `std::map<int,int>` insertion of an absent key, keeping the entries
ordered by ascending key (the iteration order of `std::map`). -/
def mapInsert (k v : Int) : List (Int × Int) → List (Int × Int)
  | [] => [(k, v)]
  | p :: ps => if k < p.1 then (k, v) :: p :: ps else p :: mapInsert k v ps

/-- One of the three "Check if shared nodes dimensions match up" loops of
`einstein_process`: scan an index spec together with its shape, recording
`label ↦ extent` for every negative entry and asserting (`.error ()`) when a
label is already recorded with a different extent.  Reading the shape past
its end is out of bounds in the C++ source; it is modelled by `0`
(`List.headI` of `[]`). -/
def buildDimMap : List Int → List Int → List (Int × Int) → Except Unit (List (Int × Int))
  | [], _, m => .ok m
  | s :: ss, ds, m =>
    if s ≥ 0 then buildDimMap ss ds.tail m
    else
      match mapFind s m with
      | none => buildDimMap ss ds.tail (mapInsert s ds.headI m)
      | some v => if v = ds.headI then buildDimMap ss ds.tail m else .error ()

/-- The three scan loops of `einstein_process` in source order: operand A,
then B, then the result C, all feeding one `dim_map`. -/
def dimMap3 (dim_a dim_b dim_c a b c : List Int) : Except Unit (List (Int × Int)) := do
  let m1 ← buildDimMap a dim_a []
  let m2 ← buildDimMap b dim_b m1
  buildDimMap c dim_c m2

/-- Insertion step of the sort of `dim_map_pair` "by ascending extent"
(`std::sort` with comparator `a.second < b.second`): the new pair goes after
every pair of smaller-or-equal extent.  (`std::sort` leaves the relative
order of equal extents unspecified; the embedding fixes this stable
order.) -/
def insertByExtent (p : Int × Int) : List (Int × Int) → List (Int × Int)
  | [] => [p]
  | q :: qs => if p.2 < q.2 then p :: q :: qs else q :: insertByExtent p qs

/-- The `std::sort(dim_map_pair.begin(), dim_map_pair.end(), ...)` call:
sort the `(label, extent)` pairs by ascending extent. -/
def sortByExtent (l : List (Int × Int)) : List (Int × Int) :=
  l.foldl (fun acc p => insertByExtent p acc) []

/-- Modelled from the spec: `lookupvector` (from `std_vector_tools.hpp`,
whose definition is not part of the sources) as used on `dim_map_keys`:
for each shared label, "look up its position in the sorted `iter_dims`
sequence".  `lookupvector keys k` is the position of the first occurrence
of `k` in `keys` (the keys fed to it are pairwise distinct, and it is only
consulted at present keys). -/
def lookupvector (keys : List Int) (k : Int) : Nat :=
  match keys with
  | [] => 0
  | x :: xs => if x = k then 0 else lookupvector xs k + 1

/-- One of the three "Update data pointers to match indices" loops of
`einstein_process`: walk an index spec with a running `cumprod` of the
shape's extents; a negative entry stores `cumprod` into stride slot
`1 + lu[-entry]`, a non-negative entry adds `entry * cumprod` into the base
offset slot `0`.  Reading the shape past its end is out of bounds in the
C++ source (modelled by `0`), as is a stride-slot index past the table
(modelled by `List.set`'s no-op). -/
def fillStrides (lu : Int → Nat) : List Int → List Int → Int → List Int → List Int
  | [], _, _, st => st
  | s :: ss, ds, cumprod, st =>
    let st' := if s < 0 then st.set (1 + lu (-s)) cumprod
               else st.set 0 (st.getD 0 0 + s * cumprod)
    fillStrides lu ss ds.tail (cumprod * ds.headI) st'

/-- The four by-reference output vectors of `einstein_process`. -/
structure EinsteinOut where
  iter_dims : List Int
  strides_a : List Int
  strides_b : List Int
  strides_c : List Int
deriving DecidableEq

/-- The tail of `einstein_process` after every `casadi_assert` has passed,
with `m` the completed `dim_map`: sort the `(label, extent)` pairs by
ascending extent, push the extents onto the incoming `iter_dims` (the
source never clears this vector), compute `n_iter` as the product of the
extents, clear and resize the three stride vectors to
`iter_dims.size() + 1`, and fill them through `lookupvector` of the sorted
label list. -/
def einstein_plan (dim_a dim_b dim_c a b c : List Int)
    (m : List (Int × Int)) (st : EinsteinOut) : EinsteinOut × Option Int :=
  let dim_map_pair := sortByExtent m
  let extents := dim_map_pair.map (fun e => e.2)
  let n_iter := product extents
  let dim_map_keys := dim_map_pair.map (fun e => -e.1)
  let iter_dims := st.iter_dims ++ extents
  let len := iter_dims.length + 1
  let lu := lookupvector dim_map_keys
  let strides_a := fillStrides lu a dim_a 1 (List.replicate len 0)
  let strides_b := fillStrides lu b dim_b 1 (List.replicate len 0)
  let strides_c := fillStrides lu c dim_c 1 (List.replicate len 0)
  (⟨iter_dims, strides_a, strides_b, strides_c⟩, some n_iter)

/-- `einstein_process` of `shared.hpp`.  Inputs: the three matrix objects
(metadata only), their shape vectors `dim_a dim_b dim_c`, their index specs
`a b c`, and the incoming contents `st` of the four by-reference output
vectors.  Result: the output vectors as left by the call, together with
`some n_iter` on success or `none` when a `casadi_assert` fired.  The
source clears and resizes the three stride vectors but only appends to
`iter_dims`, and all assertions precede the first write to any output. -/
def einstein_process (A B C : Tensor)
    (dim_a dim_b dim_c a b c : List Int) (st : EinsteinOut) :
    EinsteinOut × Option Int :=
  if ¬(A.is_vector ∧ A.is_dense) then (st, none) else
  if ¬(B.is_vector ∧ B.is_dense) then (st, none) else
  if ¬(C.is_vector ∧ C.is_dense) then (st, none) else
  if ¬(A.numel = product dim_a) then (st, none) else
  if ¬(B.numel = product dim_b) then (st, none) else
  if ¬(C.numel = product dim_c) then (st, none) else
  if ¬(dim_a.length = a.length) then (st, none) else
  if ¬(dim_b.length = b.length) then (st, none) else
  if ¬(c.length ≤ a.length + b.length) then (st, none) else
  match dimMap3 dim_a dim_b dim_c a b c with
  | .error _ => (st, none)
  | .ok m => einstein_plan dim_a dim_b dim_c a b c m st

/-- The generic `Contraction<T>` combine of `shared.hpp`: `r += a*b`,
at the `Int` element type. -/
def Contraction (a b r : Int) : Int := r + a * b

/-- The `bvec_t` specialization of `Contraction`: `r |= a | b`, on the
64-bit flag words modelled as `Nat` (bitwise or never leaves the 64-bit
range). -/
def Contraction_bvec (a b r : Nat) : Nat := r ||| (a ||| b)

/-- A counted loop of `einstein_eval`: run `body` `k` times, advancing the
three offsets by the per-level strides after each pass (the pattern of the
`i1`/`i2`/`i3` loops, each body being either the `Contraction` leaf or the
next inner loop). -/
def cloop {σ : Type*} (sa sb sc : Int) (body : Int → Int → Int → σ → σ) :
    Nat → Int → Int → Int → σ → σ
  | 0, _, _, _, s => s
  | k+1, oa, ob, oc, s => cloop sa sb sc body k (oa + sa) (ob + sb) (oc + sc) (body oa ob oc s)

/-- The "Construct indices" loop of `einstein_eval`: decompose the linear
outer-loop index `sub` against the iteration extents beyond the innermost
three (`ind = sub % dim; sub /= dim`), returning the three accumulated
pointer advances `strides⋅inds`. -/
def decompose : List Int → List Int → List Int → List Int → Int → Int × Int × Int
  | d :: ds, xs, ys, zs, sub =>
    let ind := sub % d
    let r := decompose ds xs.tail ys.tail zs.tail (sub / d)
    (xs.headI * ind + r.1, ys.headI * ind + r.2.1, zs.headI * ind + r.2.2)
  | [], _, _, _, _ => (0, 0, 0)

/-- `einstein_eval` of `shared.hpp`, generic over the combine operation `f`
(`Contraction<T>`): early return when `n_iter` is zero; the last three
iteration dimensions and their strides become three explicit nested loops
(missing ones get extent 1 / stride 0); the outer loop runs
`n_iter / (dim1*dim2*dim3)` times, decomposing its linear index against the
remaining extents; base pointers start at stride slot 0.  Buffers are
`Int`-indexed; the accumulating write `Contraction(*a3,*b3,*c3)` is a
`Function.update` of the output buffer at the current `c` offset. -/
def einstein_eval {α : Type*} (f : α → α → α → α) (n_iter : Int)
    (iter_dims strides_a strides_b strides_c : List Int)
    (a_in b_in : Int → α) (c_in : Int → α) : Int → α :=
  if n_iter = 0 then c_in else
  let n := iter_dims.length
  let iter_dim3 := if 0 < n then iter_dims.getD (n-1) 0 else 1
  let iter_dim2 := if 1 < n then iter_dims.getD (n-2) 0 else 1
  let iter_dim1 := if 2 < n then iter_dims.getD (n-3) 0 else 1
  let stridea3 := if 0 < n then strides_a.getD n 0 else 0
  let strideb3 := if 0 < n then strides_b.getD n 0 else 0
  let stridec3 := if 0 < n then strides_c.getD n 0 else 0
  let stridea2 := if 1 < n then strides_a.getD (n-1) 0 else 0
  let strideb2 := if 1 < n then strides_b.getD (n-1) 0 else 0
  let stridec2 := if 1 < n then strides_c.getD (n-1) 0 else 0
  let stridea1 := if 2 < n then strides_a.getD (n-2) 0 else 0
  let strideb1 := if 2 < n then strides_b.getD (n-2) 0 else 0
  let stridec1 := if 2 < n then strides_c.getD (n-2) 0 else 0
  let ds := iter_dims.take (n-3)
  let xs := (strides_a.drop 1).take (n-3)
  let ys := (strides_b.drop 1).take (n-3)
  let zs := (strides_c.drop 1).take (n-3)
  let ba := strides_a.getD 0 0
  let bb := strides_b.getD 0 0
  let bc := strides_c.getD 0 0
  let leaf : Int → Int → Int → (Int → α) → (Int → α) :=
    fun oa ob oc cbuf => Function.update cbuf oc (f (a_in oa) (b_in ob) (cbuf oc))
  let inner :=
    cloop stridea1 strideb1 stridec1
      (cloop stridea2 strideb2 stridec2
        (cloop stridea3 strideb3 stridec3 leaf iter_dim3.toNat) iter_dim2.toNat)
      iter_dim1.toNat
  let m := n_iter / (iter_dim1 * iter_dim2 * iter_dim3)
  (irange m).foldl (fun cbuf i =>
    let r := decompose ds xs ys zs i
    inner (ba + r.1) (bb + r.2.1) (bc + r.2.2) cbuf) c_in

/-- The sequence of (A offset, B offset, C offset) triples at which
`einstein_eval` applies its combine, in execution order: the same loop
structure as `einstein_eval` with the `Contraction` leaf replaced by
recording the three current offsets.  The loop structure of the source
depends only on the plan, never on the element type or the combine. -/
def einstein_visits (n_iter : Int)
    (iter_dims strides_a strides_b strides_c : List Int) :
    List (Int × Int × Int) :=
  if n_iter = 0 then [] else
  let n := iter_dims.length
  let iter_dim3 := if 0 < n then iter_dims.getD (n-1) 0 else 1
  let iter_dim2 := if 1 < n then iter_dims.getD (n-2) 0 else 1
  let iter_dim1 := if 2 < n then iter_dims.getD (n-3) 0 else 1
  let stridea3 := if 0 < n then strides_a.getD n 0 else 0
  let strideb3 := if 0 < n then strides_b.getD n 0 else 0
  let stridec3 := if 0 < n then strides_c.getD n 0 else 0
  let stridea2 := if 1 < n then strides_a.getD (n-1) 0 else 0
  let strideb2 := if 1 < n then strides_b.getD (n-1) 0 else 0
  let stridec2 := if 1 < n then strides_c.getD (n-1) 0 else 0
  let stridea1 := if 2 < n then strides_a.getD (n-2) 0 else 0
  let strideb1 := if 2 < n then strides_b.getD (n-2) 0 else 0
  let stridec1 := if 2 < n then strides_c.getD (n-2) 0 else 0
  let ds := iter_dims.take (n-3)
  let xs := (strides_a.drop 1).take (n-3)
  let ys := (strides_b.drop 1).take (n-3)
  let zs := (strides_c.drop 1).take (n-3)
  let ba := strides_a.getD 0 0
  let bb := strides_b.getD 0 0
  let bc := strides_c.getD 0 0
  let leaf : Int → Int → Int → List (Int × Int × Int) → List (Int × Int × Int) :=
    fun oa ob oc t => t ++ [(oa, ob, oc)]
  let inner :=
    cloop stridea1 strideb1 stridec1
      (cloop stridea2 strideb2 stridec2
        (cloop stridea3 strideb3 stridec3 leaf iter_dim3.toNat) iter_dim2.toNat)
      iter_dim1.toNat
  let m := n_iter / (iter_dim1 * iter_dim2 * iter_dim3)
  (irange m).foldl (fun t i =>
    let r := decompose ds xs ys zs i
    inner (ba + r.1) (bb + r.2.1) (bc + r.2.2) t) []

/-- Replay a sequence of offset triples against the buffers: at each triple,
apply the combine of the values read at the A and B offsets to the value at
the C offset.  `einstein_eval` is exactly this replay of
`einstein_visits`. -/
def applyTrace {α : Type*} (f : α → α → α → α) (a_in b_in : Int → α)
    (tr : List (Int × Int × Int)) (c_in : Int → α) : Int → α :=
  tr.foldl (fun cbuf o => Function.update cbuf o.2.2 (f (a_in o.1) (b_in o.2.1) (cbuf o.2.2))) c_in

/-- `dot strides tuple`: the pointer advance `Σ strideⱼ · tupleⱼ` of an
operand for an iteration-variable assignment `tuple`. -/
def dot (xs ts : List Int) : Int := (List.zipWith (· * ·) xs ts).sum

/-- All index tuples over the given extents, first component varying
fastest (the order in which the flattening outer loop's mod/divide
decomposition enumerates the variables beyond the innermost three). -/
def tuplesCM : List Int → List (List Int)
  | [] => [[]]
  | d :: ds => (tuplesCM ds).flatMap (fun t => (irange d).map (fun i => i :: t))

/-- All index tuples over the given extents, last component varying fastest
(the order of the three explicit nested loops). -/
def tuplesRM : List Int → List (List Int)
  | [] => [[]]
  | d :: ds => (irange d).flatMap (fun i => (tuplesRM ds).map (fun t => i :: t))

/-- The Cartesian product of the iteration extents in the order the
executor walks it: outer decomposition tuples (variables before the last
three, first fastest) around the three innermost explicit loops (last
variable fastest). -/
def execTuples (dims : List Int) : List (List Int) :=
  (tuplesCM (dims.take (dims.length - 3))).flatMap
    (fun t => (tuplesRM (dims.drop (dims.length - 3))).map (fun r => t ++ r))

/-- The fixed base offset of an operand, as the spec describes it: the sum
over literal (non-negative) spec entries of `entry × running stride`, the
running stride being the product of the extents already scanned. -/
def baseOffset : List Int → List Int → Int → Int
  | [], _, _ => 0
  | s :: ss, ds, cumprod =>
    (if s ≥ 0 then s * cumprod else 0) + baseOffset ss ds.tail (cumprod * ds.headI)

/-! ### Generic facts about the executor's loop structure -/

/-- A trace builder only appends to its accumulator. -/
def TracePre (V : Int → Int → Int → List (Int × Int × Int) → List (Int × Int × Int)) : Prop :=
  ∀ oa ob oc t, V oa ob oc t = t ++ V oa ob oc []

/-- Replaying a concatenated trace is replaying the two halves in order. -/
theorem applyTrace_append {α : Type*} (f : α → α → α → α) (a b : Int → α)
    (t1 t2 : List (Int × Int × Int)) (c : Int → α) :
    applyTrace f a b (t1 ++ t2) c = applyTrace f a b t2 (applyTrace f a b t1 c) :=
  List.foldl_append ..

/-- The recording leaf only appends. -/
theorem tracePre_leaf : TracePre (fun oa ob oc t => t ++ [(oa, ob, oc)]) :=
  fun _ _ _ _ => rfl

/-- A counted loop around an append-only body is append-only. -/
theorem tracePre_cloop {V} (hV : TracePre V) (sa sb sc : Int) (k : Nat) :
    TracePre (cloop sa sb sc V k) := by
  induction k with
  | zero => intro oa ob oc t; simp [cloop]
  | succ k ih =>
    intro oa ob oc t
    simp only [cloop]
    rw [ih _ _ _ (V oa ob oc t), ih _ _ _ (V oa ob oc []), hV oa ob oc t,
      List.append_assoc]

/-- The executor body `E` replays the trace that `V` records. -/
def EvalRel {α : Type*} (f : α → α → α → α) (a b : Int → α)
    (E : Int → Int → Int → (Int → α) → (Int → α))
    (V : Int → Int → Int → List (Int × Int × Int) → List (Int × Int × Int)) : Prop :=
  ∀ oa ob oc c, E oa ob oc c = applyTrace f a b (V oa ob oc []) c

/-- The `Contraction` leaf replays the recording leaf. -/
theorem evalRel_leaf {α : Type*} (f : α → α → α → α) (a b : Int → α) :
    EvalRel f a b
      (fun oa ob oc cbuf => Function.update cbuf oc (f (a oa) (b ob) (cbuf oc)))
      (fun oa ob oc t => t ++ [(oa, ob, oc)]) :=
  fun _ _ _ _ => rfl

/-- A counted loop around a replaying body replays the loop's trace. -/
theorem evalRel_cloop {α : Type*} {f : α → α → α → α} {a b : Int → α} {E V}
    (hV : TracePre V) (hE : EvalRel f a b E V) (sa sb sc : Int) (k : Nat) :
    EvalRel f a b (cloop sa sb sc E k) (cloop sa sb sc V k) := by
  induction k with
  | zero => intro oa ob oc c; simp [cloop, applyTrace]
  | succ k ih =>
    intro oa ob oc c
    have hpre := tracePre_cloop hV sa sb sc k (oa + sa) (ob + sb) (oc + sc) (V oa ob oc [])
    simp only [cloop]
    rw [hE oa ob oc c, ih _ _ _ (applyTrace f a b (V oa ob oc []) c), hpre,
      applyTrace_append]

/-- The outer flattening loop over an append-only body is append-only. -/
theorem foldl_tracePre {V} (hV : TracePre V) (g1 g2 g3 : Int → Int)
    (is : List Int) (t : List (Int × Int × Int)) :
    is.foldl (fun t i => V (g1 i) (g2 i) (g3 i) t) t
      = t ++ is.foldl (fun t i => V (g1 i) (g2 i) (g3 i) t) [] := by
  induction is generalizing t with
  | nil => simp
  | cons j js ihf =>
    simp only [List.foldl_cons]
    rw [ihf (V (g1 j) (g2 j) (g3 j) t), ihf (V (g1 j) (g2 j) (g3 j) []),
      hV (g1 j) (g2 j) (g3 j) t, List.append_assoc]

/-- The outer flattening loop of the executor replays the outer flattening
loop of the trace. -/
theorem foldl_evalRel {α : Type*} (f : α → α → α → α) (a b : Int → α)
    (E : Int → Int → Int → (Int → α) → (Int → α))
    (V : Int → Int → Int → List (Int × Int × Int) → List (Int × Int × Int))
    (hV : TracePre V) (hE : EvalRel f a b E V)
    (g1 g2 g3 : Int → Int) (is : List Int) (c : Int → α) :
    is.foldl (fun cbuf i => E (g1 i) (g2 i) (g3 i) cbuf) c
      = applyTrace f a b (is.foldl (fun t i => V (g1 i) (g2 i) (g3 i) t) []) c := by
  induction is generalizing c with
  | nil => rfl
  | cons i is ih =>
    simp only [List.foldl_cons]
    rw [hE (g1 i) (g2 i) (g3 i) c, ih (applyTrace f a b (V (g1 i) (g2 i) (g3 i) []) c),
      foldl_tracePre hV g1 g2 g3 is (V (g1 i) (g2 i) (g3 i) []), applyTrace_append]

/-- `einstein_eval` is exactly the replay of the offset-triple trace
`einstein_visits` against the buffers: the iteration and stride logic of
the executor is independent of the element type and combine operation. -/
theorem einstein_eval_eq_applyTrace {α : Type*} (f : α → α → α → α) (n_iter : Int)
    (iter_dims strides_a strides_b strides_c : List Int)
    (a_in b_in c_in : Int → α) :
    einstein_eval f n_iter iter_dims strides_a strides_b strides_c a_in b_in c_in
      = applyTrace f a_in b_in
          (einstein_visits n_iter iter_dims strides_a strides_b strides_c) c_in := by
  by_cases h : n_iter = 0
  · simp [einstein_eval, einstein_visits, h, applyTrace]
  · simp only [einstein_eval, einstein_visits, if_neg h]
    exact foldl_evalRel f a_in b_in _ _
      (tracePre_cloop (tracePre_cloop (tracePre_cloop tracePre_leaf _ _ _ _) _ _ _ _) _ _ _ _)
      (evalRel_cloop (tracePre_cloop (tracePre_cloop tracePre_leaf _ _ _ _) _ _ _ _)
        (evalRel_cloop (tracePre_cloop tracePre_leaf _ _ _ _)
          (evalRel_cloop tracePre_leaf (evalRel_leaf f a_in b_in) _ _ _ _) _ _ _ _) _ _ _ _)
      _ _ _ _ _

/-! ### Claims C1 and C6 -/

/-- C1: in the concrete scenario — A a length-6 buffer of shape `[2,3]`
with spec `[-1,-2]`, B a length-3 buffer of shape `[3]` with spec `[-2]`,
C a length-2 buffer of shape `[2]` with spec `[-1]` — the plan builder
produces `iter_dims = [2,3]`, strides `[0,1,2]/[0,0,1]/[0,1,0]`, `n_iter
= 6`, and the executor with the arithmetic combine accumulates into C the
column-major matrix-vector product: `C[i] = initial C[i] + Σ_{j<3}
A[i + 2j]·B[j]` for `i ∈ {0,1}`. -/
theorem matvec_scenario (aB bB cB : Int → Int) :
    einstein_process ⟨true, true, 6⟩ ⟨true, true, 3⟩ ⟨true, true, 2⟩ [2, 3] [3] [2]
      [-1, -2] [-2] [-1] ⟨[], [], [], []⟩
      = (⟨[2, 3], [0, 1, 2], [0, 0, 1], [0, 1, 0]⟩, some 6)
    ∧ einstein_eval Contraction 6 [2, 3] [0, 1, 2] [0, 0, 1] [0, 1, 0] aB bB cB 0
      = cB 0 + (aB 0 * bB 0 + aB 2 * bB 1 + aB 4 * bB 2)
    ∧ einstein_eval Contraction 6 [2, 3] [0, 1, 2] [0, 0, 1] [0, 1, 0] aB bB cB 1
      = cB 1 + (aB 1 * bB 0 + aB 3 * bB 1 + aB 5 * bB 2) := by
  refine ⟨by decide, ?_, ?_⟩ <;>
  · rw [einstein_eval_eq_applyTrace,
      show einstein_visits 6 [2, 3] [0, 1, 2] [0, 0, 1] [0, 1, 0]
        = [(0, 0, 0), (2, 1, 0), (4, 2, 0), (1, 0, 1), (3, 1, 1), (5, 2, 1)] from by decide]
    simp [applyTrace, Contraction, Function.update]
    ring

/-- C6: on any plan, the executor instantiated with the bitwise-OR combine
(`bvec_t` specialization) and the executor instantiated with the
multiply-accumulate combine both replay exactly the same sequence
`einstein_visits` of (A offset, B offset, C offset) triples — the element
type and combine operation do not enter the iteration or stride logic. -/
theorem contraction_variants_same_visits (n_iter : Int)
    (iter_dims strides_a strides_b strides_c : List Int)
    (aI bI cI : Int → Int) (aN bN cN : Int → Nat) :
    einstein_eval Contraction n_iter iter_dims strides_a strides_b strides_c aI bI cI
      = applyTrace Contraction aI bI
          (einstein_visits n_iter iter_dims strides_a strides_b strides_c) cI
    ∧ einstein_eval Contraction_bvec n_iter iter_dims strides_a strides_b strides_c aN bN cN
      = applyTrace Contraction_bvec aN bN
          (einstein_visits n_iter iter_dims strides_a strides_b strides_c) cN :=
  ⟨einstein_eval_eq_applyTrace .., einstein_eval_eq_applyTrace ..⟩


/-! ### Facts about the dimension map -/

theorem mapFind_cons (k : Int) (p : Int × Int) (ps : List (Int × Int)) :
    mapFind k (p :: ps) = if p.1 = k then some p.2 else mapFind k ps := rfl

theorem mapInsert_cons (k v : Int) (p : Int × Int) (ps : List (Int × Int)) :
    mapInsert k v (p :: ps) = if k < p.1 then (k, v) :: p :: ps else p :: mapInsert k v ps := rfl

theorem mapFind_insert_self (k v : Int) (m : List (Int × Int))
    (hab : mapFind k m = none) : mapFind k (mapInsert k v m) = some v := by
  induction m with
  | nil => simp [mapInsert, mapFind]
  | cons p ps ih =>
    rw [mapFind_cons] at hab
    by_cases he : p.1 = k
    · rw [if_pos he] at hab; exact absurd hab (by simp)
    · rw [if_neg he] at hab
      by_cases hk : k < p.1
      · rw [mapInsert_cons, if_pos hk, mapFind_cons, if_pos rfl]
      · rw [mapInsert_cons, if_neg hk, mapFind_cons, if_neg he]
        exact ih hab

theorem mapFind_insert_other (k k' v : Int) (m : List (Int × Int)) (hne : k ≠ k') :
    mapFind k' (mapInsert k v m) = mapFind k' m := by
  induction m with
  | nil => simp [mapInsert, mapFind, hne]
  | cons p ps ih =>
    by_cases hk : k < p.1
    · rw [mapInsert_cons, if_pos hk, mapFind_cons, if_neg hne, mapFind_cons]
    · rw [mapInsert_cons, if_neg hk, mapFind_cons, mapFind_cons]
      by_cases he : p.1 = k'
      · rw [if_pos he, if_pos he]
      · rw [if_neg he, if_neg he]; exact ih

theorem mapFind_mem {k v : Int} {m : List (Int × Int)}
    (h : mapFind k m = some v) : (k, v) ∈ m := by
  induction m with
  | nil => simp [mapFind] at h
  | cons p ps ih =>
    rw [mapFind_cons] at h
    by_cases he : p.1 = k
    · rw [if_pos he] at h
      have hp : p = (k, v) := by
        obtain ⟨p1, p2⟩ := p
        simp only at he
        simp only [Option.some.injEq] at h
        simp [he, h]
      simp [hp]
    · rw [if_neg he] at h
      exact List.mem_cons_of_mem _ (ih h)

theorem mem_mapInsert {x : Int × Int} {k v : Int} {m : List (Int × Int)} :
    x ∈ mapInsert k v m ↔ x = (k, v) ∨ x ∈ m := by
  induction m with
  | nil => simp [mapInsert]
  | cons p ps ih =>
    by_cases hk : k < p.1
    · rw [mapInsert_cons, if_pos hk]; simp
    · rw [mapInsert_cons, if_neg hk]; simp [ih]; tauto

theorem buildDimMap_preserve {spec dims : List Int} {m m' : List (Int × Int)}
    (h : buildDimMap spec dims m = .ok m') {k v : Int}
    (hk : mapFind k m = some v) : mapFind k m' = some v := by
  induction spec generalizing dims m with
  | nil =>
    simp only [buildDimMap] at h
    cases h; exact hk
  | cons s ss ih =>
    simp only [buildDimMap] at h
    split at h
    · exact ih h hk
    · split at h
      next hf =>
        have hne : s ≠ k := fun he => by rw [he, hk] at hf; exact Option.noConfusion hf
        exact ih h (by rw [mapFind_insert_other s k _ _ hne]; exact hk)
      next v' hf =>
        split at h
        · exact ih h hk
        · exact absurd h (by simp)

theorem buildDimMap_zip_mem {spec dims : List Int} {m m' : List (Int × Int)}
    (h : buildDimMap spec dims m = .ok m') {s d : Int}
    (hmem : (s, d) ∈ spec.zip dims) (hs : s < 0) : mapFind s m' = some d := by
  induction spec generalizing dims m with
  | nil => simp at hmem
  | cons x ss ih =>
    cases dims with
    | nil => simp at hmem
    | cons d0 ds =>
      simp only [buildDimMap, List.tail_cons, List.headI] at h
      rcases List.mem_cons.mp hmem with heq | htail
      · simp only [Prod.mk.injEq] at heq
        obtain ⟨h1, h2⟩ := heq
        subst h1; subst h2
        split at h
        · omega
        · split at h
          next hf =>
            exact buildDimMap_preserve h (mapFind_insert_self _ _ m hf)
          next v' hf =>
            split at h
            next hv => exact buildDimMap_preserve h (hv ▸ hf)
            · exact absurd h (by simp)
      · split at h
        · exact ih h htail
        · split at h
          next hf => exact ih h htail
          next v' hf =>
            split at h
            · exact ih h htail
            · exact absurd h (by simp)

theorem buildDimMap_mem {spec dims : List Int} {m m' : List (Int × Int)}
    (h : buildDimMap spec dims m = .ok m') {s : Int}
    (hmem : s ∈ spec) (hs : s < 0) : ∃ v, mapFind s m' = some v := by
  induction spec generalizing dims m with
  | nil => simp at hmem
  | cons x ss ih =>
    simp only [buildDimMap] at h
    rcases List.mem_cons.mp hmem with rfl | htail
    · split at h
      · omega
      · split at h
        next hf =>
          exact ⟨_, buildDimMap_preserve h (mapFind_insert_self s dims.headI m hf)⟩
        next v' hf =>
          split at h
          · exact ⟨_, buildDimMap_preserve h hf⟩
          · exact absurd h (by simp)
    · split at h
      · exact ih h htail
      · split at h
        next hf => exact ih h htail
        next v' hf =>
          split at h
          · exact ih h htail
          · exact absurd h (by simp)

theorem dimMap3_cases {dim_a dim_b dim_c a b c : List Int} {m : List (Int × Int)}
    (h : dimMap3 dim_a dim_b dim_c a b c = .ok m) :
    ∃ m1 m2, buildDimMap a dim_a [] = .ok m1 ∧ buildDimMap b dim_b m1 = .ok m2
      ∧ buildDimMap c dim_c m2 = .ok m := by
  unfold dimMap3 at h
  simp only [bind, Except.bind] at h
  split at h
  · exact absurd h (by simp)
  next m1 h1 =>
    split at h
    · exact absurd h (by simp)
    next m2 h2 => exact ⟨m1, m2, h1, h2, h⟩

theorem dimMap3_zip_a {dim_a dim_b dim_c a b c : List Int} {m : List (Int × Int)}
    (h : dimMap3 dim_a dim_b dim_c a b c = .ok m) {s d : Int}
    (hmem : (s, d) ∈ a.zip dim_a) (hs : s < 0) : mapFind s m = some d := by
  obtain ⟨m1, m2, h1, h2, h3⟩ := dimMap3_cases h
  exact buildDimMap_preserve h3 (buildDimMap_preserve h2 (buildDimMap_zip_mem h1 hmem hs))

theorem dimMap3_zip_b {dim_a dim_b dim_c a b c : List Int} {m : List (Int × Int)}
    (h : dimMap3 dim_a dim_b dim_c a b c = .ok m) {s d : Int}
    (hmem : (s, d) ∈ b.zip dim_b) (hs : s < 0) : mapFind s m = some d := by
  obtain ⟨m1, m2, h1, h2, h3⟩ := dimMap3_cases h
  exact buildDimMap_preserve h3 (buildDimMap_zip_mem h2 hmem hs)

theorem dimMap3_zip_c {dim_a dim_b dim_c a b c : List Int} {m : List (Int × Int)}
    (h : dimMap3 dim_a dim_b dim_c a b c = .ok m) {s d : Int}
    (hmem : (s, d) ∈ c.zip dim_c) (hs : s < 0) : mapFind s m = some d := by
  obtain ⟨m1, m2, h1, h2, h3⟩ := dimMap3_cases h
  exact buildDimMap_zip_mem h3 hmem hs

theorem dimMap3_mem_a {dim_a dim_b dim_c a b c : List Int} {m : List (Int × Int)}
    (h : dimMap3 dim_a dim_b dim_c a b c = .ok m) {s : Int}
    (hmem : s ∈ a) (hs : s < 0) : ∃ v, mapFind s m = some v := by
  obtain ⟨m1, m2, h1, h2, h3⟩ := dimMap3_cases h
  obtain ⟨v, hv⟩ := buildDimMap_mem h1 hmem hs
  exact ⟨v, buildDimMap_preserve h3 (buildDimMap_preserve h2 hv)⟩

theorem dimMap3_mem_b {dim_a dim_b dim_c a b c : List Int} {m : List (Int × Int)}
    (h : dimMap3 dim_a dim_b dim_c a b c = .ok m) {s : Int}
    (hmem : s ∈ b) (hs : s < 0) : ∃ v, mapFind s m = some v := by
  obtain ⟨m1, m2, h1, h2, h3⟩ := dimMap3_cases h
  obtain ⟨v, hv⟩ := buildDimMap_mem h2 hmem hs
  exact ⟨v, buildDimMap_preserve h3 hv⟩

theorem dimMap3_mem_c {dim_a dim_b dim_c a b c : List Int} {m : List (Int × Int)}
    (h : dimMap3 dim_a dim_b dim_c a b c = .ok m) {s : Int}
    (hmem : s ∈ c) (hs : s < 0) : ∃ v, mapFind s m = some v := by
  obtain ⟨m1, m2, h1, h2, h3⟩ := dimMap3_cases h
  exact buildDimMap_mem h3 hmem hs

/-! ### The `std::map` iteration order and the sort by extent -/

/-- The keys of the `dim_map` are strictly ascending (the `std::map`
iteration order). -/
def KeysSorted (m : List (Int × Int)) : Prop :=
  List.Pairwise (fun p q : Int × Int => p.1 < q.1) m

theorem mapFind_eq_none {k : Int} {m : List (Int × Int)} :
    mapFind k m = none ↔ ∀ p ∈ m, p.1 ≠ k := by
  induction m with
  | nil => simp [mapFind]
  | cons p ps ih =>
    rw [mapFind_cons]
    by_cases he : p.1 = k
    · simp [he]
    · simp [he, ih]

theorem mapInsert_keysSorted {k v : Int} {m : List (Int × Int)}
    (hm : KeysSorted m) (hab : mapFind k m = none) :
    KeysSorted (mapInsert k v m) := by
  induction m with
  | nil => simp [mapInsert, KeysSorted]
  | cons p ps ih =>
    have habs := mapFind_eq_none.mp hab
    obtain ⟨hp, hps⟩ := List.pairwise_cons.mp hm
    by_cases hk : k < p.1
    · rw [mapInsert_cons, if_pos hk]
      refine List.pairwise_cons.mpr ⟨?_, hm⟩
      intro q hq
      rcases List.mem_cons.mp hq with rfl | hq'
      · exact hk
      · exact lt_trans hk (hp q hq')
    · rw [mapInsert_cons, if_neg hk]
      have hpk : p.1 < k :=
        lt_of_le_of_ne (not_lt.mp hk) (habs p (List.mem_cons_self p ps))
      refine List.pairwise_cons.mpr ⟨?_, ?_⟩
      · intro q hq
        rcases mem_mapInsert.mp hq with rfl | hq'
        · exact hpk
        · exact hp q hq'
      · exact ih hps (mapFind_eq_none.mpr fun q hq => habs q (List.mem_cons_of_mem p hq))

theorem buildDimMap_keysSorted {spec dims : List Int} {m m' : List (Int × Int)}
    (h : buildDimMap spec dims m = .ok m') (hm : KeysSorted m) : KeysSorted m' := by
  induction spec generalizing dims m with
  | nil => simp only [buildDimMap] at h; cases h; exact hm
  | cons s ss ih =>
    simp only [buildDimMap] at h
    split at h
    · exact ih h hm
    · split at h
      next hf => exact ih h (mapInsert_keysSorted hm hf)
      next v' hf =>
        split at h
        · exact ih h hm
        · exact absurd h (by simp)

theorem dimMap3_keysSorted {dim_a dim_b dim_c a b c : List Int} {m : List (Int × Int)}
    (h : dimMap3 dim_a dim_b dim_c a b c = .ok m) : KeysSorted m := by
  obtain ⟨m1, m2, h1, h2, h3⟩ := dimMap3_cases h
  exact buildDimMap_keysSorted h3
    (buildDimMap_keysSorted h2 (buildDimMap_keysSorted h1 (by simp [KeysSorted])))

theorem insertByExtent_perm (p : Int × Int) (l : List (Int × Int)) :
    (insertByExtent p l).Perm (p :: l) := by
  induction l with
  | nil => simp [insertByExtent]
  | cons q qs ih =>
    by_cases hq : p.2 < q.2
    · simp [insertByExtent, hq]
    · rw [insertByExtent, if_neg hq]
      exact (ih.cons q).trans (List.Perm.swap p q qs)

theorem sortByExtent_perm (l : List (Int × Int)) : (sortByExtent l).Perm l := by
  suffices h : ∀ l acc : List (Int × Int),
      (l.foldl (fun a p => insertByExtent p a) acc).Perm (l ++ acc) by
    simpa using h l []
  intro l
  induction l with
  | nil => simp
  | cons p ps ih =>
    intro acc
    exact (ih (insertByExtent p acc)).trans
      ((List.Perm.append_left ps (insertByExtent_perm p acc)).trans List.perm_middle)

theorem mem_sortByExtent {x : Int × Int} {l : List (Int × Int)} :
    x ∈ sortByExtent l ↔ x ∈ l :=
  (sortByExtent_perm l).mem_iff

theorem length_sortByExtent (l : List (Int × Int)) :
    (sortByExtent l).length = l.length :=
  (sortByExtent_perm l).length_eq

theorem mem_insertByExtent {x p : Int × Int} {l : List (Int × Int)} :
    x ∈ insertByExtent p l ↔ x = p ∨ x ∈ l :=
  (insertByExtent_perm p l).mem_iff.trans (by simp)

/-- The comparator invariant of the sort: extents pairwise non-decreasing. -/
def SortedByExtent (l : List (Int × Int)) : Prop :=
  List.Pairwise (fun p q : Int × Int => p.2 ≤ q.2) l

theorem insertByExtent_sorted {p : Int × Int} {l : List (Int × Int)}
    (hl : SortedByExtent l) : SortedByExtent (insertByExtent p l) := by
  induction l with
  | nil => simp [insertByExtent, SortedByExtent]
  | cons q qs ih =>
    obtain ⟨hq, hqs⟩ := List.pairwise_cons.mp hl
    by_cases hlt : p.2 < q.2
    · rw [insertByExtent, if_pos hlt]
      refine List.pairwise_cons.mpr ⟨?_, hl⟩
      intro x hx
      rcases List.mem_cons.mp hx with rfl | hx'
      · exact le_of_lt hlt
      · exact le_trans (le_of_lt hlt) (hq x hx')
    · rw [insertByExtent, if_neg hlt]
      refine List.pairwise_cons.mpr ⟨?_, ih hqs⟩
      intro x hx
      rcases mem_insertByExtent.mp hx with rfl | hx'
      · exact not_lt.mp hlt
      · exact hq x hx'

theorem sortByExtent_sorted (l : List (Int × Int)) : SortedByExtent (sortByExtent l) := by
  suffices h : ∀ l acc : List (Int × Int), SortedByExtent acc →
      SortedByExtent (l.foldl (fun a p => insertByExtent p a) acc) from
    h l [] (by simp [SortedByExtent])
  intro l
  induction l with
  | nil => exact fun acc h => h
  | cons p ps ih => exact fun acc h => ih _ (insertByExtent_sorted h)

theorem sortByExtent_keys_nodup {m : List (Int × Int)} (hm : KeysSorted m) :
    ((sortByExtent m).map (fun e : Int × Int => -e.1)).Nodup := by
  have h1 : List.Pairwise (fun p q : Int × Int => p.1 ≠ q.1) m :=
    hm.imp ne_of_lt
  have hsym : Symmetric (fun p q : Int × Int => p.1 ≠ q.1) := by
    intro p q hpq; exact hpq.symm
  have h2 : List.Pairwise (fun p q : Int × Int => p.1 ≠ q.1) (sortByExtent m) :=
    ((sortByExtent_perm m).pairwise_iff (fun {x y} => @hsym x y)).mpr h1
  exact List.pairwise_map.mpr (h2.imp fun h => by simpa using h)

/-! ### `lookupvector` facts -/

theorem lookupvector_lt {keys : List Int} {k : Int} (h : k ∈ keys) :
    lookupvector keys k < keys.length := by
  induction keys with
  | nil => simp at h
  | cons x xs ih =>
    rw [lookupvector]
    by_cases he : x = k
    · simp [he]
    · rw [if_neg he]
      have : k ∈ xs := by rcases List.mem_cons.mp h with rfl | h'; exact absurd rfl he; exact h'
      simpa using ih this

theorem lookupvector_getD {keys : List Int} {k : Int} (h : k ∈ keys) :
    keys.getD (lookupvector keys k) 0 = k := by
  induction keys with
  | nil => simp at h
  | cons x xs ih =>
    rw [lookupvector]
    by_cases he : x = k
    · simp [he]
    · rw [if_neg he]
      have : k ∈ xs := by rcases List.mem_cons.mp h with rfl | h'; exact absurd rfl he; exact h'
      simpa using ih this

/-! ### `fillStrides` facts -/

theorem getD_set_ne {l : List Int} {i j : Nat} (h : i ≠ j) (v : Int) :
    (l.set i v).getD j 0 = l.getD j 0 := by
  simp [List.getD_eq_getElem?_getD, List.getElem?_set, h]

theorem getD_set_self {l : List Int} {i : Nat} (h : i < l.length) (v : Int) :
    (l.set i v).getD i 0 = v := by
  simp [List.getD_eq_getElem?_getD, List.getElem?_set, h]

theorem fillStrides_length (lu : Int → Nat) (spec : List Int) :
    ∀ (dims : List Int) (c : Int) (st : List Int),
      (fillStrides lu spec dims c st).length = st.length := by
  induction spec with
  | nil => intro dims c st; rfl
  | cons s ss ih =>
    intro dims c st
    rw [fillStrides]
    by_cases hs : s < 0
    · rw [if_pos hs, ih]; exact List.length_set ..
    · rw [if_neg hs, ih]; exact List.length_set ..

theorem fillStrides_untouched (lu : Int → Nat) {spec : List Int} {j : Nat}
    (hj : 1 ≤ j) (h : ∀ s ∈ spec, s < 0 → 1 + lu (-s) ≠ j) :
    ∀ (dims : List Int) (c : Int) (st : List Int),
      (fillStrides lu spec dims c st).getD j 0 = st.getD j 0 := by
  induction spec with
  | nil => intro dims c st; rfl
  | cons s ss ih =>
    intro dims c st
    rw [fillStrides]
    have ih' := ih (fun x hx => h x (List.mem_cons_of_mem s hx))
    by_cases hs : s < 0
    · rw [if_pos hs, ih']
      exact getD_set_ne (h s (List.mem_cons_self s ss) hs) _
    · rw [if_neg hs, ih']
      exact getD_set_ne (by omega) _

theorem fillStrides_last_write (lu : Int → Nat) {u : List Int} {s : Int} {v : List Int} :
    ∀ {du : List Int} (dd : Int) (dv : List Int) (c : Int) (st : List Int),
      du.length = u.length → s < 0 →
      (∀ x ∈ v, x < 0 → lu (-x) ≠ lu (-s)) →
      1 + lu (-s) < st.length →
      (fillStrides lu (u ++ s :: v) (du ++ dd :: dv) c st).getD (1 + lu (-s)) 0
        = du.foldl (· * ·) c := by
  induction u with
  | nil =>
    intro du dd dv c st hlen hs hv hin
    obtain rfl : du = [] := List.length_eq_zero.mp hlen
    simp only [List.nil_append, List.foldl_nil]
    rw [fillStrides, if_pos hs]
    rw [@fillStrides_untouched lu v (1 + lu (-s)) (Nat.le_add_right 1 _)
      (fun x hx hxneg heq => hv x hx hxneg (Nat.add_left_cancel heq))]
    exact getD_set_self hin c
  | cons y u' ih =>
    intro du dd dv c st hlen hs hv hin
    cases du with
    | nil => simp at hlen
    | cons d0 du' =>
      simp only [List.cons_append, List.foldl_cons]
      rw [fillStrides]
      by_cases hy : y < 0
      · rw [if_pos hy]
        exact ih dd dv (c * d0) (st.set (1 + lu (-y)) c) (by simpa using hlen) hs hv
          (by rw [List.length_set]; exact hin)
      · rw [if_neg hy]
        exact ih dd dv (c * d0) (st.set 0 (st.getD 0 0 + y * c)) (by simpa using hlen)
          hs hv (by rw [List.length_set]; exact hin)

theorem fillStrides_all_nonneg (lu : Int → Nat) {spec : List Int}
    (h : ∀ s ∈ spec, 0 ≤ s) :
    ∀ (dims : List Int) (c z : Int),
      fillStrides lu spec dims c [z] = [z + baseOffset spec dims c] := by
  induction spec with
  | nil => intro dims c z; simp [fillStrides, baseOffset]
  | cons s ss ih =>
    intro dims c z
    have hs : ¬(s < 0) := not_lt.mpr (h s (List.mem_cons_self s ss))
    rw [fillStrides, if_neg hs]
    have hset : ([z].set 0 (([z] : List Int).getD 0 0 + s * c)) = [z + s * c] := rfl
    rw [hset, ih (fun x hx => h x (List.mem_cons_of_mem s hx))]
    rw [baseOffset, if_pos (not_lt.mp hs), add_assoc]

theorem fillStrides_extend (lu : Int → Nat) {spec : List Int} :
    ∀ (dims : List Int) (c : Int) (t : List Int) (k : Nat),
      0 < t.length →
      (∀ s ∈ spec, s < 0 → 1 + lu (-s) < t.length) →
      fillStrides lu spec dims c (t ++ List.replicate k 0)
        = fillStrides lu spec dims c t ++ List.replicate k 0 := by
  induction spec with
  | nil => intro dims c t k ht h; rfl
  | cons s ss ih =>
    intro dims c t k ht h
    rw [fillStrides, fillStrides]
    by_cases hs : s < 0
    · simp only [if_pos hs]
      have hin : 1 + lu (-s) < t.length := h s (List.mem_cons_self s ss) hs
      rw [List.set_append, if_pos hin]
      exact ih dims.tail (c * dims.headI) (t.set (1 + lu (-s)) c) k
        (by rw [List.length_set]; exact ht)
        (fun x hx hxneg => by
          rw [List.length_set]; exact h x (List.mem_cons_of_mem s hx) hxneg)
    · simp only [if_neg hs]
      rw [List.getD_append _ _ _ _ ht, List.set_append, if_pos ht]
      exact ih dims.tail (c * dims.headI) (t.set 0 (t.getD 0 0 + s * c)) k
        (by rw [List.length_set]; exact ht)
        (fun x hx hxneg => by
          rw [List.length_set]; exact h x (List.mem_cons_of_mem s hx) hxneg)

/-! ### Inverting a successful `einstein_process` call -/

theorem einstein_process_some {A B C : Tensor} {dim_a dim_b dim_c a b c : List Int}
    {st st' : EinsteinOut} {n : Int}
    (h : einstein_process A B C dim_a dim_b dim_c a b c st = (st', some n)) :
    ∃ m, dimMap3 dim_a dim_b dim_c a b c = .ok m
      ∧ einstein_plan dim_a dim_b dim_c a b c m st = (st', some n) := by
  unfold einstein_process at h
  split at h
  · simp at h
  split at h
  · simp at h
  split at h
  · simp at h
  split at h
  · simp at h
  split at h
  · simp at h
  split at h
  · simp at h
  split at h
  · simp at h
  split at h
  · simp at h
  split at h
  · simp at h
  split at h
  · simp at h
  next m hm => exact ⟨m, hm, h⟩

theorem einstein_plan_inv {dim_a dim_b dim_c a b c : List Int} {m : List (Int × Int)}
    {st st' : EinsteinOut} {n : Int}
    (h : einstein_plan dim_a dim_b dim_c a b c m st = (st', some n)) :
    st'.iter_dims = st.iter_dims ++ (sortByExtent m).map (fun e => e.2)
    ∧ st'.strides_a = fillStrides (lookupvector ((sortByExtent m).map (fun e => -e.1)))
        a dim_a 1
        (List.replicate ((st.iter_dims ++ (sortByExtent m).map (fun e => e.2)).length + 1) 0)
    ∧ st'.strides_b = fillStrides (lookupvector ((sortByExtent m).map (fun e => -e.1)))
        b dim_b 1
        (List.replicate ((st.iter_dims ++ (sortByExtent m).map (fun e => e.2)).length + 1) 0)
    ∧ st'.strides_c = fillStrides (lookupvector ((sortByExtent m).map (fun e => -e.1)))
        c dim_c 1
        (List.replicate ((st.iter_dims ++ (sortByExtent m).map (fun e => e.2)).length + 1) 0)
    ∧ n = product ((sortByExtent m).map (fun e => e.2)) := by
  have h1 := congrArg (fun p : EinsteinOut × Option Int => p.1.iter_dims) h
  have h2 := congrArg (fun p : EinsteinOut × Option Int => p.1.strides_a) h
  have h3 := congrArg (fun p : EinsteinOut × Option Int => p.1.strides_b) h
  have h4 := congrArg (fun p : EinsteinOut × Option Int => p.1.strides_c) h
  have h5 := congrArg (fun p : EinsteinOut × Option Int => p.2) h
  simp only [einstein_plan] at h1 h2 h3 h4 h5
  exact ⟨h1.symm, h2.symm, h3.symm, h4.symm, (Option.some.injEq .. |>.mp h5).symm⟩

theorem einstein_process_none {A B C : Tensor} {dim_a dim_b dim_c a b c : List Int}
    {st st' : EinsteinOut}
    (h : einstein_process A B C dim_a dim_b dim_c a b c st = (st', none)) : st' = st := by
  unfold einstein_process at h
  split at h
  · exact ((Prod.mk.injEq _ _ _ _).mp h).1.symm
  split at h
  · exact ((Prod.mk.injEq _ _ _ _).mp h).1.symm
  split at h
  · exact ((Prod.mk.injEq _ _ _ _).mp h).1.symm
  split at h
  · exact ((Prod.mk.injEq _ _ _ _).mp h).1.symm
  split at h
  · exact ((Prod.mk.injEq _ _ _ _).mp h).1.symm
  split at h
  · exact ((Prod.mk.injEq _ _ _ _).mp h).1.symm
  split at h
  · exact ((Prod.mk.injEq _ _ _ _).mp h).1.symm
  split at h
  · exact ((Prod.mk.injEq _ _ _ _).mp h).1.symm
  split at h
  · exact ((Prod.mk.injEq _ _ _ _).mp h).1.symm
  split at h
  · exact ((Prod.mk.injEq _ _ _ _).mp h).1.symm
  next m hm => simp [einstein_plan, Prod.ext_iff] at h

theorem label_slot_lt {dim_a dim_b dim_c a b c : List Int} {m : List (Int × Int)}
    (hm : dimMap3 dim_a dim_b dim_c a b c = .ok m) {s : Int} (hs : s < 0)
    (hmem : s ∈ a ∨ s ∈ b ∨ s ∈ c) :
    lookupvector ((sortByExtent m).map (fun e => -e.1)) (-s) < (sortByExtent m).length := by
  have hv : ∃ v, mapFind s m = some v := by
    rcases hmem with h' | h' | h'
    · exact dimMap3_mem_a hm h' hs
    · exact dimMap3_mem_b hm h' hs
    · exact dimMap3_mem_c hm h' hs
  obtain ⟨v, hv⟩ := hv
  have hmem' : (-s) ∈ (sortByExtent m).map (fun e : Int × Int => -e.1) :=
    List.mem_map.mpr ⟨(s, v), mem_sortByExtent.mpr (mapFind_mem hv), rfl⟩
  simpa using lookupvector_lt hmem'

theorem neg_label_in_keys {dim_a dim_b dim_c a b c : List Int} {m : List (Int × Int)}
    (hm : dimMap3 dim_a dim_b dim_c a b c = .ok m) {s : Int} (hs : s < 0)
    (hmem : s ∈ a ∨ s ∈ b ∨ s ∈ c) :
    (-s) ∈ (sortByExtent m).map (fun e : Int × Int => -e.1) := by
  have hv : ∃ v, mapFind s m = some v := by
    rcases hmem with h' | h' | h'
    · exact dimMap3_mem_a hm h' hs
    · exact dimMap3_mem_b hm h' hs
    · exact dimMap3_mem_c hm h' hs
  obtain ⟨v, hv⟩ := hv
  exact List.mem_map.mpr ⟨(s, v), mem_sortByExtent.mpr (mapFind_mem hv), rfl⟩

/-! ### Claims C3, C4, C5, C7 -/

/-- C3 counterexample: a valid input whose A shape contains a zero-size
dimension indexed by the non-negative literal `0` — the builder succeeds
with `n_iter = 1`, not 0 (a literal-indexed dimension never reaches the
dimension map, so its zero extent cannot zero the product). -/
theorem zero_dim_literal_runs :
    einstein_process ⟨true, true, 0⟩ ⟨true, true, 1⟩ ⟨true, true, 1⟩ [0] [] [] [0] [] []
      ⟨[], [], [], []⟩ = (⟨[], [0], [0], [0]⟩, some 1)
    ∧ (0 : Int) ∈ ([0] : List Int) := by decide

/-- C3 amended: when a zero-size dimension is indexed by a *negative
(shared) label* in some operand, a successful plan-builder call returns
`n_iter = 0`, and the executor at `n_iter = 0` performs no writes (the
output buffer is returned untouched) and records no offset accesses at
all.  (A zero-size dimension indexed by a non-negative literal does not
force `n_iter = 0`; see the counterexample.) -/
theorem zero_extent_shared_label (A B C : Tensor)
    (dim_a dim_b dim_c a b c : List Int) (st st' : EinsteinOut) (n s : Int)
    (h : einstein_process A B C dim_a dim_b dim_c a b c st = (st', some n))
    (hs : s < 0)
    (hz : (s, 0) ∈ a.zip dim_a ∨ (s, 0) ∈ b.zip dim_b ∨ (s, 0) ∈ c.zip dim_c) :
    n = 0
    ∧ ∀ (α : Type) (f : α → α → α → α) (dims sa sb sc : List Int) (aB bB cB : Int → α),
        einstein_eval f n dims sa sb sc aB bB cB = cB
        ∧ einstein_visits n dims sa sb sc = [] := by
  obtain ⟨m, hm, hp⟩ := einstein_process_some h
  obtain ⟨-, -, -, -, hn⟩ := einstein_plan_inv hp
  have hfind : mapFind s m = some 0 := by
    rcases hz with h' | h' | h'
    · exact dimMap3_zip_a hm h' hs
    · exact dimMap3_zip_b hm h' hs
    · exact dimMap3_zip_c hm h' hs
  have hzero : (0 : Int) ∈ (sortByExtent m).map (fun e : Int × Int => e.2) :=
    List.mem_map.mpr ⟨(s, 0), mem_sortByExtent.mpr (mapFind_mem hfind), rfl⟩
  have hn0 : n = 0 := by rw [hn]; exact List.prod_eq_zero hzero
  subst hn0
  exact ⟨rfl, fun α f dims sa sb sc aB bB cB => ⟨by simp [einstein_eval], by simp [einstein_visits]⟩⟩

/-- C4 counterexample: a result spec strictly shorter than the result
shape is accepted — with `dim_c = [2]` and `c = []` (and trivial A, B) the
builder raises no error and returns a plan, because the source asserts
`dim.size() == spec.size()` only for operands A and B and checks only
`c.size() <= a.size() + b.size()` for the result. -/
theorem result_spec_shorter_accepted :
    einstein_process ⟨true, true, 1⟩ ⟨true, true, 1⟩ ⟨true, true, 2⟩ [] [] [2] [] [] []
      ⟨[], [], [], []⟩ = (⟨[], [0], [0], [0]⟩, some 1)
    ∧ ([2] : List Int).length ≠ ([] : List Int).length := by decide

/-- C4 amended: a spec-length mismatch is a fatal error for operands A and
B, and an over-long result spec (`c.size() > a.size() + b.size()`) is a
fatal error for C; in each case the call fails before producing a plan and
leaves the output state untouched.  (A result spec merely *shorter* than
the result shape is accepted; see the counterexample.) -/
theorem spec_length_mismatch_errors (A B C : Tensor)
    (dim_a dim_b dim_c a b c : List Int) (st : EinsteinOut)
    (h : dim_a.length ≠ a.length ∨ dim_b.length ≠ b.length
      ∨ a.length + b.length < c.length) :
    einstein_process A B C dim_a dim_b dim_c a b c st = (st, none) := by
  unfold einstein_process
  split
  · rfl
  split
  · rfl
  split
  · rfl
  split
  · rfl
  split
  · rfl
  split
  · rfl
  split
  · rfl
  next h7 =>
  split
  · rfl
  next h8 =>
  split
  · rfl
  next h9 =>
  exfalso
  rcases h with h' | h' | h'
  · exact h' (not_not.mp h7)
  · exact h' (not_not.mp h8)
  · have := not_not.mp h9
    omega

/-- C7: whenever the plan builder fails (any `casadi_assert`: density or
flat-vector violation, element-count mismatch, spec-length violation, or
index-label extent conflict), the by-reference output state is returned
exactly as it came in — every assertion in the source precedes the first
write to `iter_dims` or the stride tables, and the builder never touches
a data buffer (it receives none). -/
theorem process_error_no_mutation (A B C : Tensor)
    (dim_a dim_b dim_c a b c : List Int) (st st' : EinsteinOut)
    (h : einstein_process A B C dim_a dim_b dim_c a b c st = (st', none)) :
    st' = st :=
  einstein_process_none h

/-! ### Claims C5, C8, C9, C10 -/

/-- C5: for every successful plan-builder call with the output `iter_dims`
empty on entry (its documented use), the returned `iter_dims` is sorted in
non-decreasing order of extent, the returned `n_iter` is the product of
its entries, and when `iter_dims` is empty `n_iter = 1` and each stride
table is exactly the one-slot table holding the operand's fixed base
offset. -/
theorem plan_sorted_and_product (A B C : Tensor)
    (dim_a dim_b dim_c a b c : List Int) (st' : EinsteinOut) (n : Int)
    (h : einstein_process A B C dim_a dim_b dim_c a b c ⟨[], [], [], []⟩ = (st', some n)) :
    st'.iter_dims.Sorted (· ≤ ·)
    ∧ n = product st'.iter_dims
    ∧ (st'.iter_dims = [] →
        n = 1
        ∧ st'.strides_a = [baseOffset a dim_a 1]
        ∧ st'.strides_b = [baseOffset b dim_b 1]
        ∧ st'.strides_c = [baseOffset c dim_c 1]) := by
  obtain ⟨m, hm, hp⟩ := einstein_process_some h
  obtain ⟨hid, hsa, hsb, hsc, hn⟩ := einstein_plan_inv hp
  simp only [List.nil_append] at hid hsa hsb hsc
  refine ⟨?_, ?_, ?_⟩
  · rw [hid]
    exact List.pairwise_map.mpr (sortByExtent_sorted m)
  · rw [hid, hn]
  · intro hempty
    rw [hid] at hempty
    have hm_nil : sortByExtent m = [] := List.map_eq_nil_iff.mp hempty
    have hnil : m = [] := by
      have := sortByExtent_perm m
      rw [hm_nil] at this
      exact this.nil_eq.symm
    have hnone : ∀ spec : List Int, (∀ x ∈ spec, x ∈ a ∨ x ∈ b ∨ x ∈ c) →
        ∀ x ∈ spec, 0 ≤ x := by
      intro spec hsub x hx
      by_contra hneg
      push_neg at hneg
      obtain ⟨v, hv⟩ : ∃ v, mapFind x m = some v := by
        rcases hsub x hx with h' | h' | h'
        · exact dimMap3_mem_a hm h' hneg
        · exact dimMap3_mem_b hm h' hneg
        · exact dimMap3_mem_c hm h' hneg
      rw [hnil] at hv
      exact Option.noConfusion hv
    have hlen0 : ((sortByExtent m).map (fun e : Int × Int => e.2)).length = 0 := by
      rw [hm_nil]; rfl
    refine ⟨by rw [hn, hm_nil]; rfl, ?_, ?_, ?_⟩
    · rw [hsa, hlen0]
      have := fillStrides_all_nonneg (lookupvector ((sortByExtent m).map (fun e => -e.1)))
        (hnone a (fun x hx => Or.inl hx)) dim_a 1 0
      rw [show (List.replicate (0 + 1) 0 : List Int) = [0] from rfl, this, zero_add]
    · rw [hsb, hlen0]
      have := fillStrides_all_nonneg (lookupvector ((sortByExtent m).map (fun e => -e.1)))
        (hnone b (fun x hx => Or.inr (Or.inl hx))) dim_b 1 0
      rw [show (List.replicate (0 + 1) 0 : List Int) = [0] from rfl, this, zero_add]
    · rw [hsc, hlen0]
      have := fillStrides_all_nonneg (lookupvector ((sortByExtent m).map (fun e => -e.1)))
        (hnone c (fun x hx => Or.inr (Or.inr hx))) dim_c 1 0
      rw [show (List.replicate (0 + 1) 0 : List Int) = [0] from rfl, this, zero_add]

/-- C8: when the same negative label `s` occurs at several positions of a
single operand's own spec (a diagonal) — the spec splits as `u ++ s :: v`
with no later occurrence of `s` in `v`, the shape splitting alongside —
the stride recorded for `s`'s slot in that operand's stride table is the
running cumulative stride at that last occurrence, i.e. the product of the
extents of the dimensions scanned before it: the last write wins.  This
holds for each of the three operands A, B and the result C.  (The slot of
label `s` is `1 +` its position in the sorted label list of the plan's
dimension map.) -/
theorem diagonal_last_write_wins (A B C : Tensor)
    (dim_a dim_b dim_c a b c : List Int) (st' : EinsteinOut) (n : Int)
    (m : List (Int × Int))
    (hm : dimMap3 dim_a dim_b dim_c a b c = .ok m)
    (h : einstein_process A B C dim_a dim_b dim_c a b c ⟨[], [], [], []⟩ = (st', some n)) :
    (∀ u v du dv : List Int, ∀ s dd : Int,
      a = u ++ s :: v → dim_a = du ++ dd :: dv → du.length = u.length → s < 0 → s ∉ v →
      st'.strides_a.getD
        (1 + lookupvector ((sortByExtent m).map (fun e => -e.1)) (-s)) 0
        = du.foldl (· * ·) 1)
    ∧ (∀ u v du dv : List Int, ∀ s dd : Int,
      b = u ++ s :: v → dim_b = du ++ dd :: dv → du.length = u.length → s < 0 → s ∉ v →
      st'.strides_b.getD
        (1 + lookupvector ((sortByExtent m).map (fun e => -e.1)) (-s)) 0
        = du.foldl (· * ·) 1)
    ∧ (∀ u v du dv : List Int, ∀ s dd : Int,
      c = u ++ s :: v → dim_c = du ++ dd :: dv → du.length = u.length → s < 0 → s ∉ v →
      st'.strides_c.getD
        (1 + lookupvector ((sortByExtent m).map (fun e => -e.1)) (-s)) 0
        = du.foldl (· * ·) 1) := by
  obtain ⟨m', hm', hp⟩ := einstein_process_some h
  rw [hm] at hm'
  obtain rfl : m = m' := by cases hm'; rfl
  obtain ⟨-, hsa, hsb, hsc, -⟩ := einstein_plan_inv hp
  simp only [List.nil_append] at hsa hsb hsc
  have hgen : ∀ w dw : List Int, (∀ x ∈ w, x ∈ a ∨ x ∈ b ∨ x ∈ c) →
      ∀ u v du dv : List Int, ∀ s dd : Int,
      w = u ++ s :: v → dw = du ++ dd :: dv → du.length = u.length → s < 0 → s ∉ v →
      (fillStrides (lookupvector ((sortByExtent m).map (fun e => -e.1))) w dw 1
        (List.replicate
          (((sortByExtent m).map (fun e : Int × Int => e.2)).length + 1) 0)).getD
        (1 + lookupvector ((sortByExtent m).map (fun e => -e.1)) (-s)) 0
        = du.foldl (· * ·) 1 := by
    intro w dw hsub u v du dv s dd hw hd hlen hs hlast
    have hsmem : s ∈ w := by rw [hw]; exact List.mem_append_right u (List.mem_cons_self s v)
    have hkeys : (-s) ∈ (sortByExtent m).map (fun e : Int × Int => -e.1) :=
      neg_label_in_keys hm hs (hsub s hsmem)
    have hwit : ∀ x ∈ v, x < 0 →
        lookupvector ((sortByExtent m).map (fun e => -e.1)) (-x)
          ≠ lookupvector ((sortByExtent m).map (fun e => -e.1)) (-s) := by
      intro x hx hxneg heq
      have hxmem : x ∈ w := by
        rw [hw]; exact List.mem_append_right u (List.mem_cons_of_mem s hx)
      have hxkeys : (-x) ∈ (sortByExtent m).map (fun e : Int × Int => -e.1) :=
        neg_label_in_keys hm hxneg (hsub x hxmem)
      have h1 := lookupvector_getD hxkeys
      rw [heq, lookupvector_getD hkeys] at h1
      exact hlast (by
        have hxs : x = s := by omega
        rw [← hxs]; exact hx)
    rw [hw, hd]
    exact fillStrides_last_write _ dd dv 1 _ hlen hs hwit
      (by
        rw [List.length_replicate]
        have := label_slot_lt hm hs (hsub s hsmem)
        simp only [List.length_map]
        omega)
  refine ⟨?_, ?_, ?_⟩
  · intro u v du dv s dd hw hd hlen hs hlast
    rw [hsa]
    exact hgen a dim_a (fun x hx => Or.inl hx) u v du dv s dd hw hd hlen hs hlast
  · intro u v du dv s dd hw hd hlen hs hlast
    rw [hsb]
    exact hgen b dim_b (fun x hx => Or.inr (Or.inl hx)) u v du dv s dd hw hd hlen hs hlast
  · intro u v du dv s dd hw hd hlen hs hlast
    rw [hsc]
    exact hgen c dim_c (fun x hx => Or.inr (Or.inr hx)) u v du dv s dd hw hd hlen hs hlast

/-- C9: `einstein_process` clears and resizes the stride vectors but only
appends to `iter_dims`; with `k` pre-existing entries in `iter_dims` the
pre-existing entries stay in front of the appended extents, the stride
tables get length `k + (number of labels) + 1`, and all stride values land
in slots `1 ..` number of labels — i.e. each table equals the table of a
fresh (empty `iter_dims`) call padded with `k` trailing zeros, misaligned
with the appended extents.  The documented slot/extent correspondence
therefore holds exactly under the unstated precondition that `iter_dims`
is empty on entry. -/
theorem iter_dims_append_only (A B C : Tensor)
    (dim_a dim_b dim_c a b c : List Int) (st0 st1 stE : EinsteinOut) (n nE : Int)
    (h1 : einstein_process A B C dim_a dim_b dim_c a b c st0 = (st1, some n))
    (h2 : einstein_process A B C dim_a dim_b dim_c a b c ⟨[], [], [], []⟩ = (stE, some nE)) :
    n = nE
    ∧ st1.iter_dims = st0.iter_dims ++ stE.iter_dims
    ∧ st1.strides_a = stE.strides_a ++ List.replicate st0.iter_dims.length 0
    ∧ st1.strides_b = stE.strides_b ++ List.replicate st0.iter_dims.length 0
    ∧ st1.strides_c = stE.strides_c ++ List.replicate st0.iter_dims.length 0 := by
  obtain ⟨m, hm, hp⟩ := einstein_process_some h1
  obtain ⟨m', hm'2, hpE⟩ := einstein_process_some h2
  rw [hm] at hm'2
  obtain rfl : m = m' := by cases hm'2; rfl
  obtain ⟨hid, hsa, hsb, hsc, hn⟩ := einstein_plan_inv hp
  obtain ⟨hidE, hsaE, hsbE, hscE, hnE⟩ := einstein_plan_inv hpE
  simp only [List.nil_append] at hidE hsaE hsbE hscE
  have hrange : ∀ (spec : List Int), (∀ x ∈ spec, x ∈ a ∨ x ∈ b ∨ x ∈ c) →
      ∀ x ∈ spec, x < 0 →
      1 + lookupvector ((sortByExtent m).map (fun e => -e.1)) (-x)
        < (List.replicate (((sortByExtent m).map (fun e : Int × Int => e.2)).length + 1)
            (0 : Int)).length := by
    intro spec hsub x hx hxneg
    rw [List.length_replicate]
    have := label_slot_lt hm hxneg (hsub x hx)
    simp only [List.length_map]
    omega
  have hsplit : ∀ spec dims : List Int,
      (∀ x ∈ spec, x ∈ a ∨ x ∈ b ∨ x ∈ c) →
      fillStrides (lookupvector ((sortByExtent m).map (fun e => -e.1))) spec dims 1
        (List.replicate ((st0.iter_dims ++ (sortByExtent m).map (fun e : Int × Int => e.2)).length + 1) 0)
      = fillStrides (lookupvector ((sortByExtent m).map (fun e => -e.1))) spec dims 1
          (List.replicate (((sortByExtent m).map (fun e : Int × Int => e.2)).length + 1) 0)
        ++ List.replicate st0.iter_dims.length 0 := by
    intro spec dims hsub
    have hlen : (st0.iter_dims ++ (sortByExtent m).map (fun e : Int × Int => e.2)).length + 1
        = (((sortByExtent m).map (fun e : Int × Int => e.2)).length + 1) + st0.iter_dims.length := by
      simp [List.length_append]; omega
    rw [hlen, List.replicate_add]
    exact fillStrides_extend _ dims 1 _ st0.iter_dims.length (by simp) (hrange spec hsub)
  refine ⟨by rw [hn, hnE], by rw [hid, hidE], ?_, ?_, ?_⟩
  · rw [hsa, hsaE, hsplit a dim_a (fun x hx => Or.inl hx)]
  · rw [hsb, hsbE, hsplit b dim_b (fun x hx => Or.inr (Or.inl hx))]
  · rw [hsc, hscE, hsplit c dim_c (fun x hx => Or.inr (Or.inr hx))]

/-- C10: for a plan built with `iter_dims` empty on entry, if the label of
iteration-variable slot `k` does not occur in an operand's index spec,
then that operand's stride slot `k+1` is zero — the operand's element is
reused (broadcast) across every value of that variable.  This holds for
each of A, B and C, in particular for a label occurring only in the
result spec.  (The label of slot `k` is minus the `k`-th entry of the
plan's sorted label list.) -/
theorem absent_label_zero_stride (A B C : Tensor)
    (dim_a dim_b dim_c a b c : List Int) (st' : EinsteinOut) (n : Int)
    (m : List (Int × Int)) (k : Nat)
    (hm : dimMap3 dim_a dim_b dim_c a b c = .ok m)
    (h : einstein_process A B C dim_a dim_b dim_c a b c ⟨[], [], [], []⟩ = (st', some n))
    (hk : k < st'.iter_dims.length) :
    (-(((sortByExtent m).map (fun e : Int × Int => -e.1)).getD k 0) ∉ a →
        st'.strides_a.getD (k + 1) 0 = 0)
    ∧ (-(((sortByExtent m).map (fun e : Int × Int => -e.1)).getD k 0) ∉ b →
        st'.strides_b.getD (k + 1) 0 = 0)
    ∧ (-(((sortByExtent m).map (fun e : Int × Int => -e.1)).getD k 0) ∉ c →
        st'.strides_c.getD (k + 1) 0 = 0) := by
  obtain ⟨m', hm', hp⟩ := einstein_process_some h
  rw [hm] at hm'
  obtain rfl : m = m' := by cases hm'; rfl
  obtain ⟨hid, hsa, hsb, hsc, -⟩ := einstein_plan_inv hp
  simp only [List.nil_append] at hid hsa hsb hsc
  have hgen : ∀ (spec dims : List Int),
      (∀ x ∈ spec, x ∈ a ∨ x ∈ b ∨ x ∈ c) →
      -(((sortByExtent m).map (fun e : Int × Int => -e.1)).getD k 0) ∉ spec →
      (fillStrides (lookupvector ((sortByExtent m).map (fun e => -e.1))) spec dims 1
        (List.replicate (((sortByExtent m).map (fun e : Int × Int => e.2)).length + 1) 0)).getD
          (k + 1) 0 = 0 := by
    intro spec dims hsub habs
    rw [@fillStrides_untouched (lookupvector ((sortByExtent m).map (fun e => -e.1)))
      spec (k + 1) (by omega) ?_]
    · rw [List.getD_eq_getElem?_getD, List.getElem?_replicate]
      split <;> rfl
    · intro x hx hxneg heq
      have hxkeys : (-x) ∈ (sortByExtent m).map (fun e : Int × Int => -e.1) :=
        neg_label_in_keys hm hxneg (hsub x hx)
      have hgd := lookupvector_getD hxkeys
      have hlu : lookupvector ((sortByExtent m).map (fun e => -e.1)) (-x) = k := by omega
      rw [hlu] at hgd
      exact habs (by rw [hgd]; simpa using hx)
  constructor
  · intro habs
    rw [hsa]
    exact hgen a dim_a (fun x hx => Or.inl hx) habs
  constructor
  · intro habs
    rw [hsb]
    exact hgen b dim_b (fun x hx => Or.inr (Or.inl hx)) habs
  · intro habs
    rw [hsc]
    exact hgen c dim_c (fun x hx => Or.inr (Or.inr hx)) habs

/-! ### Witnesses -/

theorem zero_extent_shared_label_witness :
    einstein_process ⟨true, true, 0⟩ ⟨true, true, 1⟩ ⟨true, true, 1⟩ [0] [] [] [-1] [] []
      ⟨[], [], [], []⟩ = (⟨[0], [0, 1], [0, 0], [0, 0]⟩, some 0)
    ∧ (-1 : Int) < 0
    ∧ (((-1 : Int), (0 : Int)) ∈ ([-1] : List Int).zip [0]
        ∨ ((-1 : Int), (0 : Int)) ∈ ([] : List Int).zip []
        ∨ ((-1 : Int), (0 : Int)) ∈ ([] : List Int).zip [])
    ∧ ((0 : Int) = 0
        ∧ ∀ (α : Type) (f : α → α → α → α) (dims sa sb sc : List Int) (aB bB cB : Int → α),
            einstein_eval f 0 dims sa sb sc aB bB cB = cB
            ∧ einstein_visits 0 dims sa sb sc = []) :=
  ⟨by decide, by decide, Or.inl (by decide),
    zero_extent_shared_label ⟨true, true, 0⟩ ⟨true, true, 1⟩ ⟨true, true, 1⟩ [0] [] []
      [-1] [] [] ⟨[], [], [], []⟩ ⟨[0], [0, 1], [0, 0], [0, 0]⟩ 0 (-1)
      (by decide) (by decide) (Or.inl (by decide))⟩

theorem spec_length_mismatch_errors_witness :
    (([2] : List Int).length ≠ ([] : List Int).length
      ∨ ([] : List Int).length ≠ ([] : List Int).length
      ∨ ([] : List Int).length + ([] : List Int).length < ([] : List Int).length)
    ∧ einstein_process ⟨true, true, 2⟩ ⟨true, true, 1⟩ ⟨true, true, 1⟩ [2] [] [] [] [] []
        ⟨[5], [6], [7], [8]⟩ = (⟨[5], [6], [7], [8]⟩, none) :=
  ⟨Or.inl (by decide),
    spec_length_mismatch_errors ⟨true, true, 2⟩ ⟨true, true, 1⟩ ⟨true, true, 1⟩
      [2] [] [] [] [] [] ⟨[5], [6], [7], [8]⟩ (Or.inl (by decide))⟩

theorem plan_sorted_and_product_witness :
    einstein_process ⟨true, true, 6⟩ ⟨true, true, 3⟩ ⟨true, true, 2⟩ [2, 3] [3] [2]
      [-1, -2] [-2] [-1] ⟨[], [], [], []⟩
      = (⟨[2, 3], [0, 1, 2], [0, 0, 1], [0, 1, 0]⟩, some 6)
    ∧ (([2, 3] : List Int).Sorted (· ≤ ·)
        ∧ (6 : Int) = product [2, 3]
        ∧ (([2, 3] : List Int) = [] →
            (6 : Int) = 1
            ∧ ([0, 1, 2] : List Int) = [baseOffset [-1, -2] [2, 3] 1]
            ∧ ([0, 0, 1] : List Int) = [baseOffset [-2] [3] 1]
            ∧ ([0, 1, 0] : List Int) = [baseOffset [-1] [2] 1])) :=
  ⟨by decide,
    plan_sorted_and_product ⟨true, true, 6⟩ ⟨true, true, 3⟩ ⟨true, true, 2⟩ [2, 3] [3] [2]
      [-1, -2] [-2] [-1] ⟨[2, 3], [0, 1, 2], [0, 0, 1], [0, 1, 0]⟩ 6 (by decide)⟩

theorem process_error_no_mutation_witness :
    einstein_process ⟨false, true, 1⟩ ⟨true, true, 1⟩ ⟨true, true, 1⟩ [] [] [] [] [] []
      ⟨[5], [6], [7], [8]⟩ = (⟨[5], [6], [7], [8]⟩, none)
    ∧ (⟨[5], [6], [7], [8]⟩ : EinsteinOut) = ⟨[5], [6], [7], [8]⟩ :=
  ⟨by decide,
    process_error_no_mutation ⟨false, true, 1⟩ ⟨true, true, 1⟩ ⟨true, true, 1⟩ [] [] []
      [] [] [] ⟨[5], [6], [7], [8]⟩ ⟨[5], [6], [7], [8]⟩ (by decide)⟩

theorem diagonal_last_write_wins_witness :
    dimMap3 [2, 2] [2, 2] [2, 2] [-1, -1] [-1, -1] [-1, -1] = .ok [(-1, 2)]
    ∧ einstein_process ⟨true, true, 4⟩ ⟨true, true, 4⟩ ⟨true, true, 4⟩ [2, 2] [2, 2] [2, 2]
        [-1, -1] [-1, -1] [-1, -1] ⟨[], [], [], []⟩
        = (⟨[2], [0, 2], [0, 2], [0, 2]⟩, some 2)
    ∧ ((∀ u v du dv : List Int, ∀ s dd : Int,
          ([-1, -1] : List Int) = u ++ s :: v → ([2, 2] : List Int) = du ++ dd :: dv →
          du.length = u.length → s < 0 → s ∉ v →
          ([0, 2] : List Int).getD
            (1 + lookupvector ((sortByExtent [(-1, 2)]).map (fun e => -e.1)) (-s)) 0
            = du.foldl (· * ·) 1)
        ∧ (∀ u v du dv : List Int, ∀ s dd : Int,
            ([-1, -1] : List Int) = u ++ s :: v → ([2, 2] : List Int) = du ++ dd :: dv →
            du.length = u.length → s < 0 → s ∉ v →
            ([0, 2] : List Int).getD
              (1 + lookupvector ((sortByExtent [(-1, 2)]).map (fun e => -e.1)) (-s)) 0
              = du.foldl (· * ·) 1)
        ∧ (∀ u v du dv : List Int, ∀ s dd : Int,
            ([-1, -1] : List Int) = u ++ s :: v → ([2, 2] : List Int) = du ++ dd :: dv →
            du.length = u.length → s < 0 → s ∉ v →
            ([0, 2] : List Int).getD
              (1 + lookupvector ((sortByExtent [(-1, 2)]).map (fun e => -e.1)) (-s)) 0
              = du.foldl (· * ·) 1)) :=
  ⟨rfl, by decide,
    diagonal_last_write_wins ⟨true, true, 4⟩ ⟨true, true, 4⟩ ⟨true, true, 4⟩ [2, 2] [2, 2]
      [2, 2] [-1, -1] [-1, -1] [-1, -1] ⟨[2], [0, 2], [0, 2], [0, 2]⟩ 2 [(-1, 2)]
      rfl (by decide)⟩

theorem iter_dims_append_only_witness :
    einstein_process ⟨true, true, 6⟩ ⟨true, true, 3⟩ ⟨true, true, 2⟩ [2, 3] [3] [2]
      [-1, -2] [-2] [-1] ⟨[9], [], [], []⟩
      = (⟨[9, 2, 3], [0, 1, 2, 0], [0, 0, 1, 0], [0, 1, 0, 0]⟩, some 6)
    ∧ einstein_process ⟨true, true, 6⟩ ⟨true, true, 3⟩ ⟨true, true, 2⟩ [2, 3] [3] [2]
        [-1, -2] [-2] [-1] ⟨[], [], [], []⟩
        = (⟨[2, 3], [0, 1, 2], [0, 0, 1], [0, 1, 0]⟩, some 6)
    ∧ ((6 : Int) = 6
        ∧ ([9, 2, 3] : List Int) = [9] ++ [2, 3]
        ∧ ([0, 1, 2, 0] : List Int) = [0, 1, 2] ++ List.replicate ([9] : List Int).length 0
        ∧ ([0, 0, 1, 0] : List Int) = [0, 0, 1] ++ List.replicate ([9] : List Int).length 0
        ∧ ([0, 1, 0, 0] : List Int) = [0, 1, 0] ++ List.replicate ([9] : List Int).length 0) :=
  ⟨by decide, by decide,
    iter_dims_append_only ⟨true, true, 6⟩ ⟨true, true, 3⟩ ⟨true, true, 2⟩ [2, 3] [3] [2]
      [-1, -2] [-2] [-1] ⟨[9], [], [], []⟩
      ⟨[9, 2, 3], [0, 1, 2, 0], [0, 0, 1, 0], [0, 1, 0, 0]⟩
      ⟨[2, 3], [0, 1, 2], [0, 0, 1], [0, 1, 0]⟩ 6 6 (by decide) (by decide)⟩

theorem absent_label_zero_stride_witness :
    dimMap3 [2, 3] [3] [2] [-1, -2] [-2] [-1] = .ok [(-2, 3), (-1, 2)]
    ∧ einstein_process ⟨true, true, 6⟩ ⟨true, true, 3⟩ ⟨true, true, 2⟩ [2, 3] [3] [2]
        [-1, -2] [-2] [-1] ⟨[], [], [], []⟩
        = (⟨[2, 3], [0, 1, 2], [0, 0, 1], [0, 1, 0]⟩, some 6)
    ∧ 1 < ([2, 3] : List Int).length
    ∧ ((-(((sortByExtent [(-2, 3), (-1, 2)]).map (fun e : Int × Int => -e.1)).getD 1 0)
          ∉ ([-1, -2] : List Int) → ([0, 1, 2] : List Int).getD (1 + 1) 0 = 0)
        ∧ (-(((sortByExtent [(-2, 3), (-1, 2)]).map (fun e : Int × Int => -e.1)).getD 1 0)
            ∉ ([-2] : List Int) → ([0, 0, 1] : List Int).getD (1 + 1) 0 = 0)
        ∧ (-(((sortByExtent [(-2, 3), (-1, 2)]).map (fun e : Int × Int => -e.1)).getD 1 0)
            ∉ ([-1] : List Int) → ([0, 1, 0] : List Int).getD (1 + 1) 0 = 0)) :=
  ⟨rfl, by decide, by decide,
    absent_label_zero_stride ⟨true, true, 6⟩ ⟨true, true, 3⟩ ⟨true, true, 2⟩ [2, 3] [3] [2]
      [-1, -2] [-2] [-1] ⟨[2, 3], [0, 1, 2], [0, 0, 1], [0, 1, 0]⟩ 6 [(-2, 3), (-1, 2)] 1
      rfl (by decide) (by decide)⟩


/-! ### Arithmetic and enumeration lemmas for the executor equivalence -/

theorem product_nil : product [] = 1 := rfl

theorem product_cons (d : Int) (ds : List Int) : product (d :: ds) = d * product ds := by
  simp [product]

theorem product_append (l1 l2 : List Int) : product (l1 ++ l2) = product l1 * product l2 := by
  simp [product]

theorem mem_irange {n i : Int} : i ∈ irange n ↔ 0 ≤ i ∧ i < n := by
  simp only [irange, List.mem_map, List.mem_range, Int.ofNat_eq_natCast]
  constructor
  · rintro ⟨j, hj, rfl⟩
    omega
  · rintro ⟨h0, h1⟩
    exact ⟨i.toNat, by omega, by omega⟩

theorem irange_one : irange 1 = [0] := rfl

theorem flatMap_single {α β : Type*} (l : List α) (f : α → β) :
    l.flatMap (fun x => [f x]) = l.map f := by
  induction l with
  | nil => rfl
  | cons x xs ih => simp [ih]

theorem triple_eq {a1 a2 b1 b2 c1 c2 : Int} (h1 : a1 = a2) (h2 : b1 = b2) (h3 : c1 = c2) :
    ((a1, b1, c1) : Int × Int × Int) = (a2, b2, c2) := by
  rw [h1, h2, h3]

theorem range_mul_flatMap (a : Nat) : ∀ b : Nat, List.range (a * b)
    = (List.range b).flatMap (fun s => (List.range a).map (fun r => r + a * s)) := by
  intro b
  induction b with
  | zero => simp
  | succ b ih =>
    rw [Nat.mul_succ, List.range_add, ih, List.range_succ, List.flatMap_append]
    congr 1
    rw [List.flatMap_cons]
    simp only [List.flatMap_nil, List.append_nil]
    exact List.map_congr_left (fun r hr => by omega)

theorem irange_mul {d P : Int} (hd : 0 < d) (hP : 0 ≤ P) :
    irange (d * P) = (irange P).flatMap (fun s => (irange d).map (fun r => r + d * s)) := by
  obtain ⟨dn, rfl⟩ := Int.eq_ofNat_of_zero_le (le_of_lt hd)
  obtain ⟨Pn, rfl⟩ := Int.eq_ofNat_of_zero_le hP
  rw [irange, show (((dn : Nat) : Int) * ((Pn : Nat) : Int)).toNat = dn * Pn from by
    rw [← Int.natCast_mul, Int.toNat_natCast]]
  rw [range_mul_flatMap, List.map_flatMap, irange, List.flatMap_map]
  apply List.flatMap_congr
  intro s hs
  rw [irange, List.map_map, List.map_map]
  apply List.map_congr_left
  intro r hr
  simp only [Function.comp, Int.ofNat_eq_natCast]
  push_cast
  ring

theorem dot_nil_right (xs : List Int) : dot xs [] = 0 := by
  simp [dot]

theorem dot_cons (x : Int) (xs : List Int) (t : Int) (ts : List Int) :
    dot (x :: xs) (t :: ts) = x * t + dot xs ts := by
  simp [dot]

theorem dot_append {xs ts : List Int} (h : xs.length = ts.length) (ys us : List Int) :
    dot (xs ++ ys) (ts ++ us) = dot xs ts + dot ys us := by
  simp only [dot]
  rw [List.zipWith_append _ _ _ _ _ h, List.sum_append]

/-! ### Closed forms of the executor's loops -/

theorem cloop_leaf_trace (sa sb sc : Int) (k : Nat) : ∀ oa ob oc : Int,
    cloop sa sb sc (fun oa ob oc t => t ++ [(oa, ob, oc)]) k oa ob oc []
      = (List.range k).map
          (fun j : Nat => (oa + (j : Int) * sa, ob + (j : Int) * sb, oc + (j : Int) * sc)) := by
  induction k with
  | zero => intro oa ob oc; rfl
  | succ k ih =>
    intro oa ob oc
    rw [cloop, tracePre_cloop tracePre_leaf sa sb sc k _ _ _ _, ih]
    rw [List.range_succ_eq_map, List.map_cons, List.map_map]
    simp only [List.nil_append, Nat.cast_zero, zero_mul, add_zero, List.singleton_append]
    congr 1
    apply List.map_congr_left
    intro j hj
    simp only [Function.comp]
    exact triple_eq (by push_cast; ring) (by push_cast; ring) (by push_cast; ring)

theorem cloop_trace_closed {V : Int → Int → Int → List (Int × Int × Int) → List (Int × Int × Int)}
    (hV : TracePre V) (M : Int → Int → Int → List (Int × Int × Int))
    (hM : ∀ oa ob oc, V oa ob oc [] = M oa ob oc) (sa sb sc : Int) (k : Nat) :
    ∀ oa ob oc : Int, cloop sa sb sc V k oa ob oc []
      = (List.range k).flatMap
          (fun j : Nat => M (oa + (j : Int) * sa) (ob + (j : Int) * sb) (oc + (j : Int) * sc)) := by
  induction k with
  | zero => intro oa ob oc; rfl
  | succ k ih =>
    intro oa ob oc
    have hMcong : ∀ a1 a2 b1 b2 c1 c2 : Int, a1 = a2 → b1 = b2 → c1 = c2 →
        M a1 b1 c1 = M a2 b2 c2 := by
      intro a1 a2 b1 b2 c1 c2 e1 e2 e3
      rw [e1, e2, e3]
    rw [cloop, tracePre_cloop hV sa sb sc k _ _ _ _, hM, ih]
    rw [List.range_succ_eq_map, List.flatMap_cons, List.flatMap_map]
    congr 1
    · exact hMcong _ _ _ _ _ _ (by push_cast; ring) (by push_cast; ring) (by push_cast; ring)
    · apply List.flatMap_congr
      intro j hj
      exact hMcong _ _ _ _ _ _ (by push_cast; ring) (by push_cast; ring) (by push_cast; ring)

theorem cloop3_trace (d1 d2 d3 xa1 xa2 xa3 xb1 xb2 xb3 xc1 xc2 xc3 : Int) :
    ∀ oa ob oc : Int,
    cloop xa1 xb1 xc1 (cloop xa2 xb2 xc2 (cloop xa3 xb3 xc3
        (fun oa ob oc t => t ++ [(oa, ob, oc)]) d3.toNat) d2.toNat) d1.toNat oa ob oc []
      = (irange d1).flatMap (fun i1 => (irange d2).flatMap (fun i2 => (irange d3).map (fun i3 =>
          (oa + i1 * xa1 + i2 * xa2 + i3 * xa3,
           ob + i1 * xb1 + i2 * xb2 + i3 * xb3,
           oc + i1 * xc1 + i2 * xc2 + i3 * xc3)))) := by
  intro oa ob oc
  have hpre3 := tracePre_cloop tracePre_leaf xa3 xb3 xc3 d3.toNat
  have h3 := cloop_leaf_trace xa3 xb3 xc3 d3.toNat
  have h2 := cloop_trace_closed hpre3 _ h3 xa2 xb2 xc2 d2.toNat
  have hpre2 := tracePre_cloop hpre3 xa2 xb2 xc2 d2.toNat
  have h1 := cloop_trace_closed hpre2 _ h2 xa1 xb1 xc1 d1.toNat
  rw [h1 oa ob oc]
  rw [irange, List.flatMap_map]
  apply List.flatMap_congr
  intro j1 hj1
  rw [irange, List.flatMap_map]
  apply List.flatMap_congr
  intro j2 hj2
  rw [irange, List.map_map]
  all_goals
    apply List.map_congr_left
    intro j3 hj3
  all_goals simp only [Function.comp, Int.ofNat_eq_natCast]

theorem foldl_trace_flatMap {V : Int → Int → Int → List (Int × Int × Int) → List (Int × Int × Int)}
    (hV : TracePre V) (g1 g2 g3 : Int → Int) (is : List Int) :
    is.foldl (fun t i => V (g1 i) (g2 i) (g3 i) t) []
      = is.flatMap (fun i => V (g1 i) (g2 i) (g3 i) []) := by
  induction is with
  | nil => rfl
  | cons i is ih =>
    rw [List.foldl_cons, foldl_tracePre hV g1 g2 g3 is _, ih, List.flatMap_cons]

theorem decompose_enum : ∀ (D X Y Z : List Int), (∀ d ∈ D, 0 < d) →
    X.length = D.length → Y.length = D.length → Z.length = D.length →
    (irange (product D)).map (fun i => decompose D X Y Z i)
      = (tuplesCM D).map (fun t => (dot X t, dot Y t, dot Z t)) := by
  intro D
  induction D with
  | nil =>
    intro X Y Z h hX hY hZ
    rw [show product [] = 1 from rfl, irange_one]
    simp [tuplesCM, decompose, dot_nil_right]
  | cons d D ih =>
    intro X Y Z h hX hY hZ
    cases X with
    | nil => simp at hX
    | cons x xs =>
    cases Y with
    | nil => simp at hY
    | cons y ys =>
    cases Z with
    | nil => simp at hZ
    | cons z zs =>
    have hd : 0 < d := h d (List.mem_cons_self d D)
    have hD : ∀ v ∈ D, 0 < v := fun v hv => h v (List.mem_cons_of_mem d hv)
    have hP : 0 < product D := List.prod_pos hD
    rw [product_cons, irange_mul hd (le_of_lt hP), List.map_flatMap]
    rw [tuplesCM, List.map_flatMap]
    have hstep : ∀ s ∈ irange (product D),
        (List.map (fun i => decompose (d :: D) (x :: xs) (y :: ys) (z :: zs) i)
          ((irange d).map (fun r => r + d * s)))
        = (irange d).map (fun r =>
            (x * r + (decompose D xs ys zs s).1,
             y * r + (decompose D xs ys zs s).2.1,
             z * r + (decompose D xs ys zs s).2.2)) := by
      intro s hs
      rw [List.map_map]
      apply List.map_congr_left
      intro r hr
      obtain ⟨hr0, hrd⟩ := mem_irange.mp hr
      obtain ⟨hs0, hsP⟩ := mem_irange.mp hs
      simp only [Function.comp, decompose]
      have hmod : (r + d * s) % d = r := by
        rw [Int.add_mul_emod_self_left, Int.emod_eq_of_lt hr0 hrd]
      have hdiv : (r + d * s) / d = s := by
        rw [Int.add_mul_ediv_left r s (by omega : d ≠ 0), Int.ediv_eq_zero_of_lt hr0 hrd,
          zero_add]
      rw [hmod, hdiv]
      rfl
    rw [List.flatMap_congr hstep]
    have hrw : ∀ G : Int × Int × Int → List (Int × Int × Int),
        (irange (product D)).flatMap (fun s => G (decompose D xs ys zs s))
          = (tuplesCM D).flatMap (fun t => G (dot xs t, dot ys t, dot zs t)) := by
      intro G
      rw [← List.flatMap_map (fun i => decompose D xs ys zs i) G (irange (product D))]
      rw [ih xs ys zs hD (by simpa using hX) (by simpa using hY) (by simpa using hZ)]
      rw [List.flatMap_map]
    rw [hrw (fun p => (irange d).map (fun r =>
      (x * r + p.1, y * r + p.2.1, z * r + p.2.2)))]
    apply List.flatMap_congr
    intro t ht
    rw [List.map_map]
    all_goals
      apply List.map_congr_left
      intro r hr
    all_goals simp only [Function.comp, dot_cons]

/-! ### The Cartesian-product enumerations -/

theorem tuplesCM_length {L : List Int} {t : List Int} (h : t ∈ tuplesCM L) :
    t.length = L.length := by
  induction L generalizing t with
  | nil => simp [tuplesCM] at h; simp [h]
  | cons d ds ih =>
    simp only [tuplesCM, List.mem_flatMap, List.mem_map] at h
    obtain ⟨t', ht', i, hi, rfl⟩ := h
    simp [ih ht']

theorem tuplesRM_length {L : List Int} {t : List Int} (h : t ∈ tuplesRM L) :
    t.length = L.length := by
  induction L generalizing t with
  | nil => simp [tuplesRM] at h; simp [h]
  | cons d ds ih =>
    simp only [tuplesRM, List.mem_flatMap, List.mem_map] at h
    obtain ⟨i, hi, t', ht', rfl⟩ := h
    simp [ih ht']

theorem mem_tuplesRM {L : List Int} {t : List Int} :
    t ∈ tuplesRM L ↔ t.length = L.length ∧ ∀ p ∈ t.zip L, 0 ≤ p.1 ∧ p.1 < p.2 := by
  induction L generalizing t with
  | nil =>
    simp only [tuplesRM, List.mem_singleton]
    constructor
    · rintro rfl; simp
    · rintro ⟨h1, -⟩; exact List.length_eq_zero.mp h1
  | cons d ds ih =>
    simp only [tuplesRM, List.mem_flatMap, List.mem_map]
    constructor
    · rintro ⟨i, hi, t', ht', rfl⟩
      obtain ⟨h0, h1⟩ := mem_irange.mp hi
      obtain ⟨hl, hb⟩ := ih.mp ht'
      refine ⟨by simp [hl], ?_⟩
      intro p hp
      rcases List.mem_cons.mp (by simpa using hp) with rfl | hp'
      · exact ⟨h0, h1⟩
      · exact hb p hp'
    · rintro ⟨hl, hb⟩
      cases t with
      | nil => simp at hl
      | cons x t' =>
        refine ⟨x, mem_irange.mpr ?_, t', ih.mpr ⟨by simpa using hl, ?_⟩, rfl⟩
        · exact hb (x, d) (by simp)
        · intro p hp
          exact hb p (by simp [hp])

theorem mem_tuplesCM {L : List Int} {t : List Int} :
    t ∈ tuplesCM L ↔ t.length = L.length ∧ ∀ p ∈ t.zip L, 0 ≤ p.1 ∧ p.1 < p.2 := by
  induction L generalizing t with
  | nil =>
    simp only [tuplesCM, List.mem_singleton]
    constructor
    · rintro rfl; simp
    · rintro ⟨h1, -⟩; exact List.length_eq_zero.mp h1
  | cons d ds ih =>
    simp only [tuplesCM, List.mem_flatMap, List.mem_map]
    constructor
    · rintro ⟨t', ht', i, hi, rfl⟩
      obtain ⟨h0, h1⟩ := mem_irange.mp hi
      obtain ⟨hl, hb⟩ := ih.mp ht'
      refine ⟨by simp [hl], ?_⟩
      intro p hp
      rcases List.mem_cons.mp (by simpa using hp) with rfl | hp'
      · exact ⟨h0, h1⟩
      · exact hb p hp'
    · rintro ⟨hl, hb⟩
      cases t with
      | nil => simp at hl
      | cons x t' =>
        refine ⟨t', ih.mpr ⟨by simpa using hl, ?_⟩, x, mem_irange.mpr ?_, rfl⟩
        · intro p hp
          exact hb p (by simp [hp])
        · exact hb (x, d) (by simp)

theorem irange_nodup (n : Int) : (irange n).Nodup :=
  (List.nodup_range n.toNat).map (fun a b h => Int.ofNat.inj h)

theorem tuplesRM_nodup (L : List Int) : (tuplesRM L).Nodup := by
  induction L with
  | nil => simp [tuplesRM]
  | cons d ds ih =>
    rw [tuplesRM, List.nodup_flatMap]
    refine ⟨fun i hi => ih.map (fun t1 t2 h => List.tail_eq_of_cons_eq h), ?_⟩
    have : List.Pairwise (· ≠ ·) (irange d) := irange_nodup d
    refine this.imp ?_
    intro i j hij t ht1 ht2
    obtain ⟨t1, -, rfl⟩ := List.mem_map.mp ht1
    obtain ⟨t2, -, he⟩ := List.mem_map.mp ht2
    exact absurd (List.head_eq_of_cons_eq he.symm) hij

theorem tuplesCM_nodup (L : List Int) : (tuplesCM L).Nodup := by
  induction L with
  | nil => simp [tuplesCM]
  | cons d ds ih =>
    rw [tuplesCM, List.nodup_flatMap]
    refine ⟨fun t ht => (irange_nodup d).map (fun i j h => List.head_eq_of_cons_eq h), ?_⟩
    have hne : List.Pairwise (· ≠ ·) (tuplesCM ds) := ih
    refine hne.imp ?_
    intro t1 t2 h12 t ht1 ht2
    obtain ⟨i1, -, rfl⟩ := List.mem_map.mp ht1
    obtain ⟨i2, -, he⟩ := List.mem_map.mp ht2
    exact absurd (List.tail_eq_of_cons_eq he.symm) h12

theorem execTuples_nodup (dims : List Int) : (execTuples dims).Nodup := by
  rw [execTuples, List.nodup_flatMap]
  refine ⟨fun t ht => (tuplesRM_nodup _).map (fun r1 r2 h => List.append_cancel_left h), ?_⟩
  refine List.Pairwise.imp_of_mem ?_ (tuplesCM_nodup _)
  intro t1 t2 ht1m ht2m h12 t ht1 ht2
  obtain ⟨r1, -, rfl⟩ := List.mem_map.mp ht1
  obtain ⟨r2, -, he⟩ := List.mem_map.mp ht2
  have hlen : t2.length = t1.length := by
    rw [tuplesCM_length ht1m, tuplesCM_length ht2m]
  exact h12 (List.append_inj he.symm hlen.symm).1

theorem zip_take_take {α β : Type*} : ∀ (k : Nat) (l1 : List α) (l2 : List β),
    (l1.take k).zip (l2.take k) = (l1.zip l2).take k
  | 0, _, _ => by simp
  | k + 1, [], l2 => by simp
  | k + 1, x :: l1, [] => by simp
  | k + 1, x :: l1, y :: l2 => by
    simp only [List.take_succ_cons, List.zip_cons_cons]
    rw [zip_take_take k l1 l2]

theorem zip_drop_drop {α β : Type*} : ∀ (k : Nat) (l1 : List α) (l2 : List β),
    (l1.drop k).zip (l2.drop k) = (l1.zip l2).drop k
  | 0, _, _ => by simp
  | k + 1, [], l2 => by simp
  | k + 1, x :: l1, [] => by simp [List.zip_nil_right]
  | k + 1, x :: l1, y :: l2 => by
    simp only [List.drop_succ_cons, List.zip_cons_cons]
    rw [zip_drop_drop k l1 l2]

theorem mem_execTuples {dims : List Int} {t : List Int} :
    t ∈ execTuples dims ↔
      t.length = dims.length ∧ ∀ p ∈ t.zip dims, 0 ≤ p.1 ∧ p.1 < p.2 := by
  rw [execTuples]
  simp only [List.mem_flatMap, List.mem_map]
  constructor
  · rintro ⟨τ, hτ, ρ, hρ, rfl⟩
    obtain ⟨hτl, hτb⟩ := mem_tuplesCM.mp hτ
    obtain ⟨hρl, hρb⟩ := mem_tuplesRM.mp hρ
    constructor
    · rw [List.length_append, hτl, hρl, ← List.length_append, List.take_append_drop]
    · intro p hp
      rw [show dims = dims.take (dims.length - 3) ++ dims.drop (dims.length - 3) from
        (List.take_append_drop _ dims).symm, List.zip_append (by rw [hτl, List.length_take])]
        at hp
      rcases List.mem_append.mp hp with h' | h'
      · exact hτb p h'
      · exact hρb p h'
  · rintro ⟨hl, hb⟩
    refine ⟨t.take (dims.length - 3), ?_, t.drop (dims.length - 3), ?_, List.take_append_drop _ t⟩
    · refine mem_tuplesCM.mpr ⟨by rw [List.length_take, List.length_take, hl], ?_⟩
      intro p hp
      rw [zip_take_take] at hp
      exact hb p (List.mem_of_mem_take hp)
    · refine mem_tuplesRM.mpr ⟨by rw [List.length_drop, List.length_drop, hl], ?_⟩
      intro p hp
      rw [zip_drop_drop] at hp
      exact hb p (List.mem_of_mem_drop hp)

theorem tuplesRM_of_zero {L : List Int} (h : (0 : Int) ∈ L) : tuplesRM L = [] := by
  induction L with
  | nil => simp at h
  | cons d ds ih =>
    rcases List.mem_cons.mp h with rfl | h'
    · rw [tuplesRM]
      simp [irange]
    · rw [tuplesRM, ih h']
      simp

theorem tuplesCM_of_zero {L : List Int} (h : (0 : Int) ∈ L) : tuplesCM L = [] := by
  induction L with
  | nil => simp at h
  | cons d ds ih =>
    rcases List.mem_cons.mp h with rfl | h'
    · rw [tuplesCM]
      simp [irange]
    · rw [tuplesCM, ih h']
      simp

theorem execTuples_of_zero {dims : List Int} (h : (0 : Int) ∈ dims) : execTuples dims = [] := by
  rw [execTuples]
  rcases List.mem_append.mp (by
      rw [List.take_append_drop]
      exact h
    : (0 : Int) ∈ dims.take (dims.length - 3) ++ dims.drop (dims.length - 3)) with h' | h'
  · rw [tuplesCM_of_zero h']
    simp
  · rw [tuplesRM_of_zero h']
    simp

/-! ### The executor trace enumerates the Cartesian product -/

theorem list_len3 {l : List Int} (h : l.length = 3) : ∃ a2 b2 c2 : Int, l = [a2, b2, c2] := by
  match l, h with
  | [a2, b2, c2], _ => exact ⟨a2, b2, c2, rfl⟩

theorem getD_cons_succ (x : Int) (l : List Int) (k : Nat) :
    (x :: l).getD (k + 1) 0 = l.getD k 0 := rfl

theorem getD_append_len_add (l r : List Int) (k : Nat) :
    (l ++ r).getD (l.length + k) 0 = r.getD k 0 := by
  rw [List.getD_append_right _ _ _ _ (by omega)]
  congr 1
  omega

theorem getD_cons_zero (x : Int) (l : List Int) : (x :: l).getD 0 0 = x := rfl

theorem tuplesRM_three (e1 e2 e3 : Int) :
    tuplesRM [e1, e2, e3]
      = (irange e1).flatMap (fun i1 => (irange e2).flatMap (fun i2 =>
          (irange e3).map (fun i3 => [i1, i2, i3]))) := by
  simp only [tuplesRM, List.map_flatMap, List.map_map]
  apply List.flatMap_congr
  intro i1 h1
  apply List.flatMap_congr
  intro i2 h2
  simp only [List.map_singleton, Function.comp]
  rw [flatMap_single]

theorem einstein_visits_exec_big (D : List Int) (e1 e2 e3 : Int)
    (X Y Z : List Int) (sa0 sb0 sc0 xa1 xa2 xa3 xb1 xb2 xb3 xc1 xc2 xc3 : Int)
    (hX : X.length = D.length) (hY : Y.length = D.length) (hZ : Z.length = D.length)
    (hpos : ∀ d ∈ D ++ [e1, e2, e3], 0 < d) :
    einstein_visits (product (D ++ [e1, e2, e3])) (D ++ [e1, e2, e3])
      (sa0 :: (X ++ [xa1, xa2, xa3])) (sb0 :: (Y ++ [xb1, xb2, xb3]))
      (sc0 :: (Z ++ [xc1, xc2, xc3]))
      = (execTuples (D ++ [e1, e2, e3])).map (fun t =>
          (sa0 + dot (X ++ [xa1, xa2, xa3]) t,
           sb0 + dot (Y ++ [xb1, xb2, xb3]) t,
           sc0 + dot (Z ++ [xc1, xc2, xc3]) t)) := by
  have hDpos : ∀ d ∈ D, 0 < d := fun d hd => hpos d (List.mem_append_left _ hd)
  have he1 : 0 < e1 := hpos e1 (List.mem_append_right _ (by simp))
  have he2 : 0 < e2 := hpos e2 (List.mem_append_right _ (by simp))
  have he3 : 0 < e3 := hpos e3 (List.mem_append_right _ (by simp))
  have hz : ¬(product (D ++ [e1, e2, e3]) = 0) := by
    have := List.prod_pos hpos
    simp only [product]
    omega
  have hn : (D ++ [e1, e2, e3]).length = D.length + 3 := by simp
  -- the extents of the three innermost loops
  have hd3 : (if 0 < (D ++ [e1, e2, e3]).length
      then (D ++ [e1, e2, e3]).getD ((D ++ [e1, e2, e3]).length - 1) 0 else 1) = e3 := by
    rw [if_pos (by simp), hn, show D.length + 3 - 1 = D.length + 2 from by omega,
      getD_append_len_add]
    rfl
  have hd2 : (if 1 < (D ++ [e1, e2, e3]).length
      then (D ++ [e1, e2, e3]).getD ((D ++ [e1, e2, e3]).length - 2) 0 else 1) = e2 := by
    rw [if_pos (by rw [hn]; omega), hn, show D.length + 3 - 2 = D.length + 1 from by omega,
      getD_append_len_add]
    rfl
  have hd1 : (if 2 < (D ++ [e1, e2, e3]).length
      then (D ++ [e1, e2, e3]).getD ((D ++ [e1, e2, e3]).length - 3) 0 else 1) = e1 := by
    rw [if_pos (by rw [hn]; omega), hn, show D.length + 3 - 3 = D.length + 0 from by omega,
      getD_append_len_add]
    rfl
  -- the strides of the three innermost loops, for each operand
  have hstr3 : ∀ (s0 : Int) (W : List Int) (w1 w2 w3 : Int), W.length = D.length →
      (if 0 < (D ++ [e1, e2, e3]).length
        then (s0 :: (W ++ [w1, w2, w3])).getD (D ++ [e1, e2, e3]).length 0 else 0) = w3 := by
    intro s0 W w1 w2 w3 hW
    rw [if_pos (by simp), hn, show D.length + 3 = (D.length + 2) + 1 from by omega,
      getD_cons_succ, ← hW, show W.length + 2 = W.length + 2 from rfl, getD_append_len_add]
    rfl
  have hstr2 : ∀ (s0 : Int) (W : List Int) (w1 w2 w3 : Int), W.length = D.length →
      (if 1 < (D ++ [e1, e2, e3]).length
        then (s0 :: (W ++ [w1, w2, w3])).getD ((D ++ [e1, e2, e3]).length - 1) 0 else 0) = w2 := by
    intro s0 W w1 w2 w3 hW
    rw [if_pos (by rw [hn]; omega), hn, show D.length + 3 - 1 = (D.length + 1) + 1 from by omega,
      getD_cons_succ, ← hW, getD_append_len_add]
    rfl
  have hstr1 : ∀ (s0 : Int) (W : List Int) (w1 w2 w3 : Int), W.length = D.length →
      (if 2 < (D ++ [e1, e2, e3]).length
        then (s0 :: (W ++ [w1, w2, w3])).getD ((D ++ [e1, e2, e3]).length - 2) 0 else 0) = w1 := by
    intro s0 W w1 w2 w3 hW
    rw [if_pos (by rw [hn]; omega), hn, show D.length + 3 - 2 = D.length + 1 from by omega,
      getD_cons_succ, ← hW, show W.length = W.length + 0 from by omega, getD_append_len_add]
    rfl
  -- the lists driving the outer flattening loop
  have hds : (D ++ [e1, e2, e3]).take ((D ++ [e1, e2, e3]).length - 3) = D := by
    rw [hn, show D.length + 3 - 3 = D.length from by omega, List.take_left]
  have hxs : ∀ (s0 : Int) (W : List Int) (w1 w2 w3 : Int), W.length = D.length →
      ((s0 :: (W ++ [w1, w2, w3])).drop 1).take ((D ++ [e1, e2, e3]).length - 3) = W := by
    intro s0 W w1 w2 w3 hW
    rw [hn, show D.length + 3 - 3 = D.length from by omega, List.drop_one, List.tail_cons,
      ← hW, List.take_left]
  have hm : product (D ++ [e1, e2, e3]) / (e1 * e2 * e3) = product D := by
    rw [product_append, show product [e1, e2, e3] = e1 * e2 * e3 from by
      simp [product]; ring]
    exact Int.mul_ediv_cancel _ (by positivity)
  rw [einstein_visits, if_neg hz]
  simp only [hd3, hd2, hd1, hstr3 sa0 X xa1 xa2 xa3 hX, hstr3 sb0 Y xb1 xb2 xb3 hY,
    hstr3 sc0 Z xc1 xc2 xc3 hZ, hstr2 sa0 X xa1 xa2 xa3 hX, hstr2 sb0 Y xb1 xb2 xb3 hY,
    hstr2 sc0 Z xc1 xc2 xc3 hZ, hstr1 sa0 X xa1 xa2 xa3 hX, hstr1 sb0 Y xb1 xb2 xb3 hY,
    hstr1 sc0 Z xc1 xc2 xc3 hZ, hds, hxs sa0 X xa1 xa2 xa3 hX, hxs sb0 Y xb1 xb2 xb3 hY,
    hxs sc0 Z xc1 xc2 xc3 hZ, hm]
  simp only [getD_cons_zero]
  rw [foldl_trace_flatMap
    (tracePre_cloop (tracePre_cloop (tracePre_cloop tracePre_leaf xa3 xb3 xc3 e3.toNat)
      xa2 xb2 xc2 e2.toNat) xa1 xb1 xc1 e1.toNat)
    (fun i => sa0 + (decompose D X Y Z i).1)
    (fun i => sb0 + (decompose D X Y Z i).2.1)
    (fun i => sc0 + (decompose D X Y Z i).2.2)
    (irange (product D))]
  simp only [cloop3_trace]
  rw [(List.flatMap_map (fun i => decompose D X Y Z i)
      (fun p : Int × Int × Int =>
        (irange e1).flatMap fun i1 => (irange e2).flatMap fun i2 => (irange e3).map fun i3 =>
          (sa0 + p.1 + i1 * xa1 + i2 * xa2 + i3 * xa3,
           sb0 + p.2.1 + i1 * xb1 + i2 * xb2 + i3 * xb3,
           sc0 + p.2.2 + i1 * xc1 + i2 * xc2 + i3 * xc3))
      (irange (product D))).symm]
  rw [decompose_enum D X Y Z hDpos hX hY hZ, List.flatMap_map]
  rw [execTuples, hds, show (D ++ [e1, e2, e3]).drop ((D ++ [e1, e2, e3]).length - 3)
      = [e1, e2, e3] from by
    rw [hn, show D.length + 3 - 3 = D.length from by omega, List.drop_left]]
  rw [List.map_flatMap]
  apply List.flatMap_congr
  intro t ht
  have htlen : t.length = D.length := tuplesCM_length ht
  rw [List.map_map, tuplesRM_three]
  simp only [List.map_flatMap, List.map_map]
  apply List.flatMap_congr
  intro i1 hi1
  apply List.flatMap_congr
  intro i2 hi2
  apply List.map_congr_left
  intro i3 hi3
  simp only [Function.comp]
  refine triple_eq ?_ ?_ ?_
  · rw [dot_append (show X.length = t.length from by rw [hX, htlen])]
    simp [dot]
    ring
  · rw [dot_append (show Y.length = t.length from by rw [hY, htlen])]
    simp [dot]
    ring
  · rw [dot_append (show Z.length = t.length from by rw [hZ, htlen])]
    simp [dot]
    ring

theorem einstein_visits_exec0 (sa0 sb0 sc0 : Int) :
    einstein_visits (product []) [] [sa0] [sb0] [sc0]
      = (execTuples []).map (fun t =>
          (sa0 + dot [] t, sb0 + dot [] t, sc0 + dot [] t)) := rfl

theorem einstein_visits_exec1 (e sa0 sb0 sc0 xa xb xc : Int) (he : 0 < e) :
    einstein_visits (product [e]) [e] [sa0, xa] [sb0, xb] [sc0, xc]
      = (execTuples [e]).map (fun t =>
          (sa0 + dot [xa] t, sb0 + dot [xb] t, sc0 + dot [xc] t)) := by
  have hz : ¬(product [e] = 0) := by simp [product]; omega
  rw [einstein_visits, if_neg hz]
  have hm : product [e] / (1 * 1 * e) = 1 := by
    rw [show product [e] = e from by simp [product], show (1 * 1 * e : Int) = e from by ring,
      Int.ediv_self (by omega)]
  simp only [show (if 0 < [e].length then [e].getD ([e].length - 1) 0 else 1) = e from rfl,
    show (if 1 < [e].length then [e].getD ([e].length - 2) 0 else 1) = 1 from rfl,
    show (if 2 < [e].length then [e].getD ([e].length - 3) 0 else 1) = 1 from rfl,
    show (if 0 < [e].length then [sa0, xa].getD [e].length 0 else 0) = xa from rfl,
    show (if 0 < [e].length then [sb0, xb].getD [e].length 0 else 0) = xb from rfl,
    show (if 0 < [e].length then [sc0, xc].getD [e].length 0 else 0) = xc from rfl,
    show (if 1 < [e].length then [sa0, xa].getD ([e].length - 1) 0 else 0) = 0 from rfl,
    show (if 1 < [e].length then [sb0, xb].getD ([e].length - 1) 0 else 0) = 0 from rfl,
    show (if 1 < [e].length then [sc0, xc].getD ([e].length - 1) 0 else 0) = 0 from rfl,
    show (if 2 < [e].length then [sa0, xa].getD ([e].length - 2) 0 else 0) = 0 from rfl,
    show (if 2 < [e].length then [sb0, xb].getD ([e].length - 2) 0 else 0) = 0 from rfl,
    show (if 2 < [e].length then [sc0, xc].getD ([e].length - 2) 0 else 0) = 0 from rfl,
    hm]
  rw [irange_one]
  simp only [List.foldl_cons, List.foldl_nil, cloop3_trace]
  have hex : execTuples [e] = (irange e).map (fun i => [i]) := by
    simp [execTuples, tuplesCM, tuplesRM, flatMap_single]
  rw [hex, List.map_map, irange_one]
  simp only [List.flatMap_cons, List.flatMap_nil, List.append_nil]
  apply List.map_congr_left
  intro i hi
  simp only [Function.comp, dot]
  exact triple_eq (by simp [decompose]; ring) (by simp [decompose]; ring)
    (by simp [decompose]; ring)

theorem einstein_visits_exec2 (e1 e2 sa0 sb0 sc0 xa1 xa2 xb1 xb2 xc1 xc2 : Int)
    (he1 : 0 < e1) (he2 : 0 < e2) :
    einstein_visits (product [e1, e2]) [e1, e2] [sa0, xa1, xa2] [sb0, xb1, xb2]
      [sc0, xc1, xc2]
      = (execTuples [e1, e2]).map (fun t =>
          (sa0 + dot [xa1, xa2] t, sb0 + dot [xb1, xb2] t, sc0 + dot [xc1, xc2] t)) := by
  have hz : ¬(product [e1, e2] = 0) := by
    simp [product]
    exact ⟨by omega, by omega⟩
  rw [einstein_visits, if_neg hz]
  have hm : product [e1, e2] / (1 * e1 * e2) = 1 := by
    rw [show product [e1, e2] = e1 * e2 from by simp [product],
      show (1 * e1 * e2 : Int) = e1 * e2 from by ring,
      Int.ediv_self (by positivity)]
  simp only [
    show (if 0 < [e1, e2].length then [e1, e2].getD ([e1, e2].length - 1) 0 else 1) = e2 from rfl,
    show (if 1 < [e1, e2].length then [e1, e2].getD ([e1, e2].length - 2) 0 else 1) = e1 from rfl,
    show (if 2 < [e1, e2].length then [e1, e2].getD ([e1, e2].length - 3) 0 else 1) = 1 from rfl,
    show (if 0 < [e1, e2].length then [sa0, xa1, xa2].getD [e1, e2].length 0 else 0) = xa2 from rfl,
    show (if 0 < [e1, e2].length then [sb0, xb1, xb2].getD [e1, e2].length 0 else 0) = xb2 from rfl,
    show (if 0 < [e1, e2].length then [sc0, xc1, xc2].getD [e1, e2].length 0 else 0) = xc2 from rfl,
    show (if 1 < [e1, e2].length then [sa0, xa1, xa2].getD ([e1, e2].length - 1) 0 else 0) = xa1 from rfl,
    show (if 1 < [e1, e2].length then [sb0, xb1, xb2].getD ([e1, e2].length - 1) 0 else 0) = xb1 from rfl,
    show (if 1 < [e1, e2].length then [sc0, xc1, xc2].getD ([e1, e2].length - 1) 0 else 0) = xc1 from rfl,
    show (if 2 < [e1, e2].length then [sa0, xa1, xa2].getD ([e1, e2].length - 2) 0 else 0) = 0 from rfl,
    show (if 2 < [e1, e2].length then [sb0, xb1, xb2].getD ([e1, e2].length - 2) 0 else 0) = 0 from rfl,
    show (if 2 < [e1, e2].length then [sc0, xc1, xc2].getD ([e1, e2].length - 2) 0 else 0) = 0 from rfl,
    hm]
  rw [irange_one]
  simp only [List.foldl_cons, List.foldl_nil, cloop3_trace]
  have hex : execTuples [e1, e2]
      = (irange e1).flatMap (fun i => (irange e2).map (fun j => [i, j])) := by
    simp only [execTuples,
      show ([e1, e2] : List Int).length - 3 = 0 from rfl, List.take_zero, List.drop_zero,
      tuplesCM, tuplesRM, List.flatMap_cons, List.flatMap_nil]
    simp only [flatMap_single, List.map_flatMap, List.map_map, List.append_nil,
      List.map_singleton, Function.comp_def, List.nil_append]
  rw [hex, List.map_flatMap, irange_one]
  simp only [List.flatMap_cons, List.flatMap_nil, List.append_nil]
  apply List.flatMap_congr
  intro i hi
  rw [List.map_map]
  apply List.map_congr_left
  intro j hj
  simp only [Function.comp, dot]
  exact triple_eq (by simp [decompose]; ring) (by simp [decompose]; ring)
    (by simp [decompose]; ring)

theorem list_len1 {l : List Int} (h : l.length = 1) : ∃ a2 : Int, l = [a2] := by
  match l, h with
  | [a2], _ => exact ⟨a2, rfl⟩

theorem list_len2 {l : List Int} (h : l.length = 2) : ∃ a2 b2 : Int, l = [a2, b2] := by
  match l, h with
  | [a2, b2], _ => exact ⟨a2, b2, rfl⟩

/-- On any well-formed plan (`n_iter` the product of the extents, stride
tables one longer than `iter_dims`, extents non-negative), the sequence of
offset triples the executor visits is exactly the Cartesian product of the
iteration extents (in the executor's order), each operand addressed at its
base offset plus `Σ strideⱼ · tupleⱼ`. -/
theorem einstein_visits_exec (dims sa sb sc : List Int)
    (hsa : sa.length = dims.length + 1) (hsb : sb.length = dims.length + 1)
    (hsc : sc.length = dims.length + 1) (hd : ∀ d ∈ dims, 0 ≤ d) :
    einstein_visits (product dims) dims sa sb sc
      = (execTuples dims).map (fun t =>
          (sa.getD 0 0 + dot (sa.drop 1) t,
           sb.getD 0 0 + dot (sb.drop 1) t,
           sc.getD 0 0 + dot (sc.drop 1) t)) := by
  by_cases hz : product dims = 0
  · rw [hz, einstein_visits, if_pos rfl,
      execTuples_of_zero (by simpa [product] using List.prod_eq_zero_iff.mp hz)]
    rfl
  · have hpos : ∀ d ∈ dims, 0 < d := by
      intro d hdm
      refine lt_of_le_of_ne (hd d hdm) (fun h0 => hz ?_)
      rw [product]
      exact List.prod_eq_zero (h0 ▸ hdm)
    by_cases h3 : 3 ≤ dims.length
    · obtain ⟨e1, e2, e3, hdrop⟩ := list_len3 (show (dims.drop (dims.length - 3)).length = 3
        from by rw [List.length_drop]; omega)
      have hdims : dims = dims.take (dims.length - 3) ++ [e1, e2, e3] := by
        rw [← hdrop, List.take_append_drop]
      have hDlen : (dims.take (dims.length - 3)).length = dims.length - 3 := by
        rw [List.length_take]; omega
      cases sa with
      | nil => simp at hsa
      | cons sa0 sa' =>
      cases sb with
      | nil => simp at hsb
      | cons sb0 sb' =>
      cases sc with
      | nil => simp at hsc
      | cons sc0 sc' =>
      simp only [List.length_cons] at hsa hsb hsc
      obtain ⟨xa1, xa2, xa3, hadrop⟩ := list_len3 (show (sa'.drop (dims.length - 3)).length = 3
        from by rw [List.length_drop]; omega)
      obtain ⟨xb1, xb2, xb3, hbdrop⟩ := list_len3 (show (sb'.drop (dims.length - 3)).length = 3
        from by rw [List.length_drop]; omega)
      obtain ⟨xc1, xc2, xc3, hcdrop⟩ := list_len3 (show (sc'.drop (dims.length - 3)).length = 3
        from by rw [List.length_drop]; omega)
      have hsa' : sa' = sa'.take (dims.length - 3) ++ [xa1, xa2, xa3] := by
        rw [← hadrop, List.take_append_drop]
      have hsb' : sb' = sb'.take (dims.length - 3) ++ [xb1, xb2, xb3] := by
        rw [← hbdrop, List.take_append_drop]
      have hsc' : sc' = sc'.take (dims.length - 3) ++ [xc1, xc2, xc3] := by
        rw [← hcdrop, List.take_append_drop]
      have hX : (sa'.take (dims.length - 3)).length = (dims.take (dims.length - 3)).length := by
        rw [List.length_take, hDlen]; omega
      have hY : (sb'.take (dims.length - 3)).length = (dims.take (dims.length - 3)).length := by
        rw [List.length_take, hDlen]; omega
      have hZ : (sc'.take (dims.length - 3)).length = (dims.take (dims.length - 3)).length := by
        rw [List.length_take, hDlen]; omega
      set D := dims.take (dims.length - 3) with hDdef
      set X := sa'.take (dims.length - 3) with hXdef
      set Y := sb'.take (dims.length - 3) with hYdef
      set Z := sc'.take (dims.length - 3) with hZdef
      rw [show (sa0 :: sa' : List Int) = sa0 :: (X ++ [xa1, xa2, xa3]) from by rw [← hsa'],
        show (sb0 :: sb' : List Int) = sb0 :: (Y ++ [xb1, xb2, xb3]) from by rw [← hsb'],
        show (sc0 :: sc' : List Int) = sc0 :: (Z ++ [xc1, xc2, xc3]) from by rw [← hsc']]
      rw [show dims = D ++ [e1, e2, e3] from hdims]
      exact einstein_visits_exec_big D e1 e2 e3 X Y Z sa0 sb0 sc0 xa1 xa2 xa3 xb1 xb2 xb3
        xc1 xc2 xc3 hX hY hZ (fun d hdm => hpos d (hdims.symm ▸ hdm))
    · cases dims with
      | nil =>
        obtain ⟨sa0, rfl⟩ := list_len1 hsa
        obtain ⟨sb0, rfl⟩ := list_len1 hsb
        obtain ⟨sc0, rfl⟩ := list_len1 hsc
        exact einstein_visits_exec0 sa0 sb0 sc0
      | cons d1 rest =>
        cases rest with
        | nil =>
          obtain ⟨sa0, xa, rfl⟩ := list_len2 hsa
          obtain ⟨sb0, xb, rfl⟩ := list_len2 hsb
          obtain ⟨sc0, xc, rfl⟩ := list_len2 hsc
          exact einstein_visits_exec1 d1 sa0 sb0 sc0 xa xb xc
            (hpos d1 (List.mem_cons_self d1 []))
        | cons d2 rest2 =>
          cases rest2 with
          | nil =>
            obtain ⟨sa0, xa1, xa2, rfl⟩ := list_len3 hsa
            obtain ⟨sb0, xb1, xb2, rfl⟩ := list_len3 hsb
            obtain ⟨sc0, xc1, xc2, rfl⟩ := list_len3 hsc
            exact einstein_visits_exec2 d1 d2 sa0 sb0 sc0 xa1 xa2 xb1 xb2 xc1 xc2
              (hpos d1 (by simp)) (hpos d2 (by simp))
          | cons d3 rest3 => exact absurd (by simp : 3 ≤ (d1 :: d2 :: d3 :: rest3).length) h3

/-- C2: for every plan in which `n_iter` is the product of the `iter_dims`
extents and each stride table has length `iter_dims.length + 1` (extents
being shape sizes, hence non-negative), the executor's fixed 3-level
flattened loop applies the combine exactly once for each tuple in the
Cartesian product of the extents — its visit trace is the image of a
duplicate-free enumeration `execTuples` of exactly the in-range tuples —
with each operand addressed at its base offset (stride slot 0) plus
`Σⱼ strideⱼ · tupleⱼ`; consequently the executor itself, for any element
type and combine, equals the naive one-loop-per-variable nest replayed
over those tuples. -/
theorem eval_flattening_equiv (n_iter : Int) (iter_dims sa sb sc : List Int)
    (hn : n_iter = product iter_dims)
    (hsa : sa.length = iter_dims.length + 1)
    (hsb : sb.length = iter_dims.length + 1)
    (hsc : sc.length = iter_dims.length + 1)
    (hd : ∀ d ∈ iter_dims, 0 ≤ d) :
    einstein_visits n_iter iter_dims sa sb sc
      = (execTuples iter_dims).map (fun t =>
          (sa.getD 0 0 + dot (sa.drop 1) t,
           sb.getD 0 0 + dot (sb.drop 1) t,
           sc.getD 0 0 + dot (sc.drop 1) t))
    ∧ (execTuples iter_dims).Nodup
    ∧ (∀ t, t ∈ execTuples iter_dims ↔
        t.length = iter_dims.length ∧ ∀ p ∈ t.zip iter_dims, 0 ≤ p.1 ∧ p.1 < p.2)
    ∧ ∀ (α : Type) (f : α → α → α → α) (aB bB cB : Int → α),
        einstein_eval f n_iter iter_dims sa sb sc aB bB cB
          = applyTrace f aB bB ((execTuples iter_dims).map (fun t =>
              (sa.getD 0 0 + dot (sa.drop 1) t,
               sb.getD 0 0 + dot (sb.drop 1) t,
               sc.getD 0 0 + dot (sc.drop 1) t))) cB := by
  subst hn
  refine ⟨einstein_visits_exec _ _ _ _ hsa hsb hsc hd, execTuples_nodup _,
    fun t => mem_execTuples, fun α f aB bB cB => ?_⟩
  rw [einstein_eval_eq_applyTrace, einstein_visits_exec _ _ _ _ hsa hsb hsc hd]

theorem eval_flattening_equiv_witness :
    (6 : Int) = product [2, 3]
    ∧ ([0, 1, 2] : List Int).length = ([2, 3] : List Int).length + 1
    ∧ ([0, 0, 1] : List Int).length = ([2, 3] : List Int).length + 1
    ∧ ([0, 1, 0] : List Int).length = ([2, 3] : List Int).length + 1
    ∧ (∀ d ∈ ([2, 3] : List Int), 0 ≤ d)
    ∧ (einstein_visits 6 [2, 3] [0, 1, 2] [0, 0, 1] [0, 1, 0]
        = (execTuples [2, 3]).map (fun t =>
            (([0, 1, 2] : List Int).getD 0 0 + dot (([0, 1, 2] : List Int).drop 1) t,
             ([0, 0, 1] : List Int).getD 0 0 + dot (([0, 0, 1] : List Int).drop 1) t,
             ([0, 1, 0] : List Int).getD 0 0 + dot (([0, 1, 0] : List Int).drop 1) t))
      ∧ (execTuples [2, 3]).Nodup
      ∧ (∀ t, t ∈ execTuples [2, 3] ↔
          t.length = ([2, 3] : List Int).length ∧ ∀ p ∈ t.zip [2, 3], 0 ≤ p.1 ∧ p.1 < p.2)
      ∧ ∀ (α : Type) (f : α → α → α → α) (aB bB cB : Int → α),
          einstein_eval f 6 [2, 3] [0, 1, 2] [0, 0, 1] [0, 1, 0] aB bB cB
            = applyTrace f aB bB ((execTuples [2, 3]).map (fun t =>
                (([0, 1, 2] : List Int).getD 0 0 + dot (([0, 1, 2] : List Int).drop 1) t,
                 ([0, 0, 1] : List Int).getD 0 0 + dot (([0, 0, 1] : List Int).drop 1) t,
                 ([0, 1, 0] : List Int).getD 0 0 + dot (([0, 1, 0] : List Int).drop 1) t))) cB) :=
  ⟨by decide, by decide, by decide, by decide, by decide,
    eval_flattening_equiv 6 [2, 3] [0, 1, 2] [0, 0, 1] [0, 1, 0]
      (by decide) (by decide) (by decide) (by decide) (by decide)⟩

end casadi
